import Mathlib

/-!
Verification development for the markov-chain word generator
(`script/generator/generator.mjs`,
`script/generator/sequencing/char-depth-sequencing-strategy.mjs`).

JS strings are modelled as `List Char`, JS numbers as `ℚ` (probabilities,
length bounds) or `Nat`/`Int` (counters, rounded lengths). A thrown JS
error is modelled by `JsResult.thrown` carrying a tag identifying the
throw site; a JS `while` loop without a termination guarantee is modelled
with fuel, exhaustion being `JsResult.diverged` (the JS program would
hang, which is neither a return nor a throw).
-/

namespace WordGen

/-- Tag identifying which JS `throw` site produced an error. -/
inductive ErrorTag where
  /-- A constructor validation error (`constructor`, generator.mjs 109-121,
  or the CharDepthSequencingStrategy constructor). -/
  | configError
  /-- `"Failed to get item for value ... from list!"`
  (`_getMatchingSequence`, generator.mjs 360). -/
  | samplingError
  /-- `"Maximum number of tries to produce unique word exceeded!"`
  (generate, generator.mjs 158). -/
  | maxTriesError
  /-- `"Maximum number of tries ... Inner cause: ..."` (generate,
  generator.mjs 166): the re-throw from the catch block on the last try. -/
  | maxTriesInnerError
  /-- The implicit TypeError raised by
  `weightedAndSorted[weightedAndSorted.length - 1].probability = 1.0`
  (generator.mjs 333) when `weightedAndSorted` is empty:
  `weightedAndSorted[-1]` is `undefined` and setting a property on
  `undefined` throws. -/
  | typeError
deriving DecidableEq, Repr

/-- Outcome of a piece of JS code: normal return, a thrown error, or
divergence (an unbounded loop that never exits). -/
inductive JsResult (α : Type) where
  | ok : α → JsResult α
  | thrown : ErrorTag → JsResult α
  | diverged : JsResult α
deriving DecidableEq, Repr

/-- `sequence.mjs` (`Sequence`): one token produced from one sample by a
sequencing strategy, with its positional role flags. -/
structure Sequence where
  chars : List Char
  isBeginning : Bool
  isMiddle : Bool
  isEnding : Bool
deriving DecidableEq, Repr

/-- `AggregatedSequence` (generator.mjs 402-410): per-distinct-`chars`
frequency record. -/
structure AggregatedSequence where
  chars : List Char
  frequencyBeginning : Nat
  frequencyMiddle : Nat
  frequencyEnding : Nat
  frequency : Nat
deriving DecidableEq, Repr

/-- `AggregatedSequenceProbabilities` (generator.mjs 420-428). -/
structure AggregatedSequenceProbabilities where
  sequence : AggregatedSequence
  probabilityBeginning : ℚ
  probabilityMiddle : ℚ
  probabilityEnding : ℚ
  probability : ℚ
deriving DecidableEq, Repr

/-- `ProbabilityAndSequence` (generator.mjs 434-439). In the weighted
table produced by `_getWeightedProbabilities` the `probability` field
holds the cumulative probability. -/
structure ProbabilityAndSequence where
  probability : ℚ
  sequence : AggregatedSequence
deriving DecidableEq, Repr

/-- `SEQUENCE_TYPES` (generator.mjs 441-445). -/
inductive SEQUENCE_TYPES where
  | BEGINNING
  | MIDDLE
  | ENDING
deriving DecidableEq, Repr

/-! ### Seeded random source

Modelled from the spec: `script/util/random-seed.mjs` (`RandomSeeded`) is
not under `src/`; only its import and call sites are. Spec section 4.1:
`next()` yields a float in `[0,1)`; `next(min,max)` a float in
`[min,max]`; identical seed and call order yields identical outputs, each
call advancing internal state; an undefined or empty seed falls back to a
fixed seed so behaviour stays deterministic. The concrete arithmetic
below (a string hash feeding a 32-bit linear congruential generator) is a
stand-in satisfying exactly those spec properties. -/

/-- Modelled from the spec: deterministic hash of the seed string into an
initial 32-bit state (random-seed.mjs is not under src/). -/
def seedOfString (s : List Char) : Nat :=
  s.foldl (fun h c => (h * 31 + c.toNat) % 2 ^ 32) 7

/-- Modelled from the spec: one linear congruential step on 32-bit state. -/
def lcgNext (x : Nat) : Nat :=
  (1664525 * x + 1013904223) % 2 ^ 32

/-- Modelled from the spec: the deterministic pseudo-random source; all
its behaviour is a pure function of the 32-bit `state`. -/
structure RandomSeeded where
  state : Nat
deriving DecidableEq, Repr

/-- Modelled from the spec: fixed fallback seed used when the seed is
undefined or empty (spec section 4.1). -/
def fallbackSeed : List Char := ['f', 'a', 'l', 'l', 'b', 'a', 'c', 'k']

/-- Modelled from the spec: `new RandomSeeded(seed)` — an undefined
(`none`) or empty seed string falls back to `fallbackSeed`. -/
def RandomSeeded.create (seed : Option (List Char)) : RandomSeeded :=
  match seed with
  | none => ⟨seedOfString fallbackSeed⟩
  | some s => if s = [] then ⟨seedOfString fallbackSeed⟩ else ⟨seedOfString s⟩

/-- Modelled from the spec: `rng.generate()` — a value in `[0,1)` plus the
advanced state. -/
def RandomSeeded.generateUnit (rng : RandomSeeded) : ℚ × RandomSeeded :=
  let x := lcgNext rng.state
  ((x : ℚ) / (2 ^ 32 : ℚ), ⟨x⟩)

/-- Modelled from the spec: `rng.generate(min, max)` — a value in the
interval from `min` to `max` plus the advanced state. -/
def RandomSeeded.generateRange (rng : RandomSeeded) (lo hi : ℚ) : ℚ × RandomSeeded :=
  let (u, rng') := rng.generateUnit
  (lo + u * (hi - lo), rng')

/-! ### CharDepthSequencingStrategy
(`script/generator/sequencing/char-depth-sequencing-strategy.mjs`) -/

/-- Modelled from the spec: `isInteger` from `script/util/validation.mjs`
is not under src/; spec sections 4.7 and 7 require "positive integer"
checks, so `isInteger` holds exactly of defined numbers with no
fractional part. -/
def isInteger (q : Option ℚ) : Bool :=
  match q with
  | none => false
  | some q => q.den = 1

/-- The loop body of `getSequencesOfSample` (char-depth strategy, lines
62-84), recursing over the suffix of the sample that starts at offset
`i`. `isFirst` tracks `i === 0`; `sample.substring(i, i + depth)` is
`rest.take depth`; `hasFollowingChar = (i + 1) < sample.length` holds iff
the suffix has at least two characters. The next iteration starts at
`i + depth`, i.e. at suffix `(c :: cs).drop depth = cs.drop (depth - 1)`.
When `depth ≥ 1` every step consumes at least one character, so the JS
loop performs at most `sample.length` iterations; `fuel` is initialized
to that bound and never runs out on the loop's reachable inputs. -/
def getSequencesOfSampleAux (depth : Nat) (preserveCase : Bool) :
    Nat → Bool → List Char → List Sequence
  | _, _, [] => []
  | 0, _, _ :: _ => []
  | fuel + 1, isFirst, c :: cs =>
    let chunk := (c :: cs).take depth
    let chars := if preserveCase ≠ true then chunk.map Char.toLower else chunk
    let hasFollowingChar := !cs.isEmpty
    { chars := chars
      isBeginning := isFirst
      isMiddle := !isFirst && hasFollowingChar
      isEnding := !hasFollowingChar } ::
      getSequencesOfSampleAux depth preserveCase fuel false (cs.drop (depth - 1))

/-- `CharDepthSequencingStrategy.getSequencesOfSample` (lines 62-84):
chunk the sample left to right in steps of `depth`, lowercasing unless
`preserveCase`, tagging each chunk at offset `i` with
`isBeginning = (i === 0)`, `isEnding = ¬((i+1) < sample.length)`,
`isMiddle = (i ≠ 0 ∧ (i+1) < sample.length)`. -/
def getSequencesOfSample (depth : Nat) (preserveCase : Bool) (sample : List Char) :
    List Sequence :=
  getSequencesOfSampleAux depth preserveCase sample.length true sample

/-- Modelled from the spec: `AbstractSequencingStrategy.getSequencesOfSet`
(abstract-sequencing-strategy.mjs is not under src/); spec section 4.2:
apply `tokenize` to each sample independently, in corpus order,
concatenating the results. -/
def getSequencesOfSet (tokenize : List Char → List Sequence)
    (samples : List (List Char)) : List Sequence :=
  (samples.map tokenize).flatten

/-- `CharDepthSequencingStrategy` state after successful construction. -/
structure CharDepthSequencingStrategy where
  depth : Nat
  preserveCase : Bool
deriving DecidableEq, Repr

/-- `CharDepthSequencingStrategy` constructor (part_002 lines 45-54):
throws unless `depth` is an integer greater than zero. -/
def mkCharDepthSequencingStrategy (depth : ℚ) (preserveCase : Bool) :
    JsResult CharDepthSequencingStrategy :=
  if ¬(isInteger (some depth) = true) ∨ depth.num ≤ 0 then
    JsResult.thrown ErrorTag.configError
  else
    JsResult.ok { depth := depth.num.toNat, preserveCase := preserveCase }

/-! ### Aggregation (`_aggregateSequences`, generator.mjs 227-264) -/

/-- The per-token mutation of an aggregated record (generator.mjs
246-256): bump each role frequency whose flag is set, and `frequency`
exactly once. -/
def bumpAggregated (a : AggregatedSequence) (s : Sequence) : AggregatedSequence :=
  { a with
    frequencyBeginning := a.frequencyBeginning + (if s.isBeginning = true then 1 else 0)
    frequencyMiddle := a.frequencyMiddle + (if s.isMiddle = true then 1 else 0)
    frequencyEnding := a.frequencyEnding + (if s.isEnding = true then 1 else 0)
    frequency := a.frequency + 1 }

/-- One iteration of the aggregation loop: look up the record keyed by
`sequence.chars` in the insertion-ordered map (modelled as a list with
distinct keys), creating a zeroed record at the end if absent, then bump
it. -/
def aggregateStep (l : List AggregatedSequence) (s : Sequence) : List AggregatedSequence :=
  if l.any (fun a => a.chars = s.chars) then
    l.map (fun a => if a.chars = s.chars then bumpAggregated a s else a)
  else
    l ++ [bumpAggregated
      { chars := s.chars, frequencyBeginning := 0, frequencyMiddle := 0
        frequencyEnding := 0, frequency := 0 } s]

/-- `_aggregateSequences` (generator.mjs 227-264): fold all tokens into
the insertion-ordered map and return its values in order. -/
def _aggregateSequences (sequences : List Sequence) : List AggregatedSequence :=
  sequences.foldl aggregateStep []

/-! ### Probabilities (`_getAggregatedSequenceProbabilities`,
generator.mjs 190-219) -/

/-- `_getAggregatedSequenceProbabilities` (generator.mjs 190-219). Note
that `frequencyTotal` is the number of distinct aggregated tokens, not
the number of token occurrences. -/
def _getAggregatedSequenceProbabilities (aggregatedSequences : List AggregatedSequence) :
    List AggregatedSequenceProbabilities :=
  let frequencyTotalBeginnings := (aggregatedSequences.map (·.frequencyBeginning)).sum
  let frequencyTotalMiddles := (aggregatedSequences.map (·.frequencyMiddle)).sum
  let frequencyTotalEndings := (aggregatedSequences.map (·.frequencyEnding)).sum
  let frequencyTotal := aggregatedSequences.length
  aggregatedSequences.map (fun a =>
    let totalOccurrences : ℕ := a.frequencyBeginning + a.frequencyMiddle + a.frequencyEnding
    { sequence := a
      probabilityBeginning :=
        if a.frequencyBeginning > 0 then
          (a.frequencyBeginning : ℚ) / (frequencyTotalBeginnings : ℚ) else 0
      probabilityMiddle :=
        if a.frequencyMiddle > 0 then
          (a.frequencyMiddle : ℚ) / (frequencyTotalMiddles : ℚ) else 0
      probabilityEnding :=
        if a.frequencyEnding > 0 then
          (a.frequencyEnding : ℚ) / (frequencyTotalEndings : ℚ) else 0
      probability := (totalOccurrences : ℚ) / (frequencyTotal : ℚ) })

/-! ### Weighted tables (`_getWeightedProbabilities`, generator.mjs
288-336) -/

/-- The filter-and-map step of `_getWeightedProbabilities` (generator.mjs
291-316): keep tokens with positive probability for the requested role,
paired with that role's probability. -/
def filteredByType (probabilities : List AggregatedSequenceProbabilities)
    (type : SEQUENCE_TYPES) : List ProbabilityAndSequence :=
  match type with
  | SEQUENCE_TYPES.BEGINNING =>
    (probabilities.filter (fun it => it.probabilityBeginning > 0)).map
      (fun it => { probability := it.probabilityBeginning, sequence := it.sequence })
  | SEQUENCE_TYPES.MIDDLE =>
    (probabilities.filter (fun it => it.probabilityMiddle > 0)).map
      (fun it => { probability := it.probabilityMiddle, sequence := it.sequence })
  | SEQUENCE_TYPES.ENDING =>
    (probabilities.filter (fun it => it.probabilityEnding > 0)).map
      (fun it => { probability := it.probabilityEnding, sequence := it.sequence })

/-- The cumulative "enrich with weights" loop (generator.mjs 322-330):
each output entry carries the running sum after adding its own
probability. -/
def cumulativeScan (acc : ℚ) : List ProbabilityAndSequence → List ProbabilityAndSequence
  | [] => []
  | o :: rest =>
    { probability := acc + o.probability, sequence := o.sequence } ::
      cumulativeScan (acc + o.probability) rest

/-- `weightedAndSorted[weightedAndSorted.length - 1].probability = 1.0`
(generator.mjs 333): overwrite the last entry's cumulative probability
with exactly 1. On an empty list `weightedAndSorted[-1]` is `undefined`
and the assignment throws a TypeError, modelled as `none`. -/
def setLastProbabilityOne : List ProbabilityAndSequence → Option (List ProbabilityAndSequence)
  | [] => none
  | [e] => some [{ probability := 1, sequence := e.sequence }]
  | e :: e2 :: rest => (setLastProbabilityOne (e2 :: rest)).map (e :: ·)

/-- `_getWeightedProbabilities` (generator.mjs 288-336). The sort call at
line 319 uses the comparator `(a, b) => { a.probability > b.probability ? 1 : -1 }`
whose block body has no `return` statement, so the comparator returns
`undefined` for every pair; ECMAScript `SortCompare` coerces that to 0
and `Array.prototype.sort` is stable, so the call leaves the filtered
order unchanged and the embedding keeps it. -/
def _getWeightedProbabilities (probabilities : List AggregatedSequenceProbabilities)
    (type : SEQUENCE_TYPES) : Option (List ProbabilityAndSequence) :=
  let filteredAndSorted := filteredByType probabilities type
  let weightedAndSorted := cumulativeScan 0 filteredAndSorted
  setLastProbabilityOne weightedAndSorted

/-! ### Word assembly (`_generateSingleWord`, generator.mjs 351-391) -/

/-- `_getMatchingSequence` (generator.mjs 354-361): scan the weighted
list in order and return the first entry whose cumulative probability is
at least `value`; `none` models the `"Failed to get item"` throw. -/
def _getMatchingSequence (weightedList : List ProbabilityAndSequence) (value : ℚ) :
    Option ProbabilityAndSequence :=
  match weightedList with
  | [] => none
  | w :: rest => if value ≤ w.probability then some w else _getMatchingSequence rest value

/-- `Math.round` on a rational: round half toward positive infinity. -/
def jsRound (q : ℚ) : Int := ⌊q + 1 / 2⌋

/-- The middle-sequence `while (charactersLength < targetLength)` loop
(generator.mjs 380-385), with fuel: the JS loop has no termination
guarantee (a drawn middle token could have empty `chars`), so fuel
exhaustion is modelled as divergence. Returns the drawn middle tokens'
chars in draw order together with the final `charactersLength`. -/
def middleLoop (probableMiddles : List ProbabilityAndSequence) (targetLength : Int) :
    Nat → Nat → List (List Char) → RandomSeeded →
      JsResult (List (List Char) × Nat) × RandomSeeded
  | fuel, charactersLength, acc, rng =>
    if (charactersLength : Int) < targetLength then
      match fuel with
      | 0 => (JsResult.diverged, rng)
      | fuel + 1 =>
        let (rndMiddle, rng') := rng.generateUnit
        match _getMatchingSequence probableMiddles rndMiddle with
        | none => (JsResult.thrown ErrorTag.samplingError, rng')
        | some item =>
          middleLoop probableMiddles targetLength fuel
            (charactersLength + item.sequence.chars.length)
            (acc ++ [item.sequence.chars]) rng'
    else (JsResult.ok (acc, charactersLength), rng)

/-- `_generateSingleWord` (generator.mjs 351-391): one assembly attempt.
Draw the rounded target length, a beginning token (appended), an ending
token (reserved, its length counted), middles while short of the target,
then append the reserved ending last and concatenate. -/
def _generateSingleWord (probableBeginnings probableMiddles probableEndings :
    List ProbabilityAndSequence) (minLength maxLength : ℚ) (fuel : Nat)
    (rng : RandomSeeded) : JsResult (List Char) × RandomSeeded :=
  let (t, rng0) := rng.generateRange minLength maxLength
  let targetLength : Int := jsRound t
  let (rndBeginning, rng1) := rng0.generateUnit
  match _getMatchingSequence probableBeginnings rndBeginning with
  | none => (JsResult.thrown ErrorTag.samplingError, rng1)
  | some beginningItem =>
    let (rndEnding, rng2) := rng1.generateUnit
    match _getMatchingSequence probableEndings rndEnding with
    | none => (JsResult.thrown ErrorTag.samplingError, rng2)
    | some endingItem =>
      let charactersLength :=
        beginningItem.sequence.chars.length + endingItem.sequence.chars.length
      match middleLoop probableMiddles targetLength fuel charactersLength [] rng2 with
      | (JsResult.ok (middles, _), rng3) =>
        (JsResult.ok
          (beginningItem.sequence.chars ++ middles.flatten ++ endingItem.sequence.chars),
          rng3)
      | (JsResult.thrown tag, rng3) => (JsResult.thrown tag, rng3)
      | (JsResult.diverged, rng3) => (JsResult.diverged, rng3)

/-! ### The retry loop and orchestration (`generate`, generator.mjs
140-182) -/

/-- The retry ceiling (generator.mjs 150). -/
def repetitionMaximum : Nat := 1000

/-- The per-word `do … while` retry loop (generator.mjs 155-171),
instrumented with the number of `_generateSingleWord` invocations it
performs (the second component). The loop iteration whose JS `attempt`
counter is `a` is modelled with `remaining = repetitionMaximum - a`, so
the guard `attempt >= repetitionMaximum` is `remaining = 0` and the
catch-block guard `attempt + 1 >= repetitionMaximum` is `remaining ≤ 1`.
`word` carries the JS variable of the same name, which keeps its
previous value when an attempt throws; the loop repeats while `word` is
`undefined` or already among `words`. -/
def retryLoopWithCount (probableBeginnings probableMiddles probableEndings :
    List ProbabilityAndSequence) (minLength maxLength : ℚ) (fuel : Nat)
    (words : List (List Char)) :
    Nat → Option (List Char) → RandomSeeded →
      (JsResult (List Char) × RandomSeeded) × Nat
  | 0, _, rng => ((JsResult.thrown ErrorTag.maxTriesError, rng), 0)
  | remaining + 1, word, rng =>
    match _generateSingleWord probableBeginnings probableMiddles probableEndings
        minLength maxLength fuel rng with
    | (JsResult.diverged, rng') => ((JsResult.diverged, rng'), 1)
    | (JsResult.thrown _, rng') =>
      if remaining = 0 then
        ((JsResult.thrown ErrorTag.maxTriesInnerError, rng'), 1)
      else
        match word with
        | none =>
          let r := retryLoopWithCount probableBeginnings probableMiddles
            probableEndings minLength maxLength fuel words remaining none rng'
          (r.1, r.2 + 1)
        | some w =>
          if words.contains w then
            let r := retryLoopWithCount probableBeginnings probableMiddles
              probableEndings minLength maxLength fuel words remaining (some w) rng'
            (r.1, r.2 + 1)
          else ((JsResult.ok w, rng'), 1)
    | (JsResult.ok w, rng') =>
      if words.contains w then
        let r := retryLoopWithCount probableBeginnings probableMiddles
          probableEndings minLength maxLength fuel words remaining (some w) rng'
        (r.1, r.2 + 1)
      else ((JsResult.ok w, rng'), 1)

/-- The per-word retry loop (generator.mjs 155-171) started at
`attempt = 0` (`remaining = repetitionMaximum`): result and advanced rng
state only. -/
def retryLoop (probableBeginnings probableMiddles probableEndings :
    List ProbabilityAndSequence) (minLength maxLength : ℚ) (fuel : Nat)
    (words : List (List Char)) (remaining : Nat) (word : Option (List Char))
    (rng : RandomSeeded) : JsResult (List Char) × RandomSeeded :=
  (retryLoopWithCount probableBeginnings probableMiddles probableEndings
    minLength maxLength fuel words remaining word rng).1

/-- The `for (let i = 0; i < howMany; i++)` loop of `generate`
(generator.mjs 152-174), accumulating accepted words in order. -/
def wordsLoop (probableBeginnings probableMiddles probableEndings :
    List ProbabilityAndSequence) (minLength maxLength : ℚ) (fuel : Nat) :
    Nat → List (List Char) → RandomSeeded →
      JsResult (List (List Char)) × RandomSeeded
  | 0, words, rng => (JsResult.ok words, rng)
  | n + 1, words, rng =>
    match retryLoop probableBeginnings probableMiddles probableEndings
        minLength maxLength fuel words repetitionMaximum none rng with
    | (JsResult.ok w, rng') =>
      wordsLoop probableBeginnings probableMiddles probableEndings
        minLength maxLength fuel n (words ++ [w]) rng'
    | (JsResult.thrown t, rng') => (JsResult.thrown t, rng')
    | (JsResult.diverged, rng') => (JsResult.diverged, rng')

/-- The state of a constructed `MarkovChainWordGenerator` (generator.mjs
18-132). The sequencing strategy is carried as its `getSequencesOfSet`
capability, the spelling strategy as its optional `apply` capability. -/
structure Generator where
  sampleSet : List (List Char)
  targetLengthMin : ℚ
  targetLengthMax : ℚ
  sequencingStrategy : List (List Char) → List Sequence
  spellingStrategy : Option (List Char → List Char)
  seed : Option (List Char)
  rng : RandomSeeded

/-- `generate(howMany)` (generator.mjs 140-182): tokenize the corpus,
aggregate, weight the three role tables, run the word loop, then apply
the spelling strategy if one is configured. Returns the result together
with the generator's advanced rng state. -/
def generate (g : Generator) (fuel : Nat) (howMany : Nat) :
    JsResult (List (List Char)) × RandomSeeded :=
  let sequences := g.sequencingStrategy g.sampleSet
  let aggregatedSequences := _aggregateSequences sequences
  let probabilities := _getAggregatedSequenceProbabilities aggregatedSequences
  match _getWeightedProbabilities probabilities SEQUENCE_TYPES.BEGINNING with
  | none => (JsResult.thrown ErrorTag.typeError, g.rng)
  | some probableBeginnings =>
    match _getWeightedProbabilities probabilities SEQUENCE_TYPES.MIDDLE with
    | none => (JsResult.thrown ErrorTag.typeError, g.rng)
    | some probableMiddles =>
      match _getWeightedProbabilities probabilities SEQUENCE_TYPES.ENDING with
      | none => (JsResult.thrown ErrorTag.typeError, g.rng)
      | some probableEndings =>
        match wordsLoop probableBeginnings probableMiddles probableEndings
            g.targetLengthMin g.targetLengthMax fuel howMany [] g.rng with
        | (JsResult.ok words, rng') =>
          (JsResult.ok
            (match g.spellingStrategy with
              | some apply => words.map apply
              | none => words), rng')
        | (JsResult.thrown t, rng') => (JsResult.thrown t, rng')
        | (JsResult.diverged, rng') => (JsResult.diverged, rng')

/-- The constructor's argument object (generator.mjs 97-108): every
recognized option, each possibly `undefined`. -/
structure GeneratorArgs where
  sampleSet : Option (List (List Char))
  targetLengthMin : Option ℚ
  targetLengthMax : Option ℚ
  sequencingStrategy : Option (List (List Char) → List Sequence)
  spellingStrategy : Option (List Char → List Char)
  seed : Option (List Char)

/-- The `MarkovChainWordGenerator` constructor (generator.mjs 109-132):
eager validation, then field assignment and rng creation. -/
def mkGenerator (args : GeneratorArgs) : JsResult Generator :=
  match args.sampleSet with
  | none => JsResult.thrown ErrorTag.configError
  | some sampleSet =>
    if sampleSet.length = 0 then JsResult.thrown ErrorTag.configError
    else if ¬(isInteger args.targetLengthMin = true) ∨
        (args.targetLengthMin.getD 0).num ≤ 0 then
      JsResult.thrown ErrorTag.configError
    else if ¬(isInteger args.targetLengthMax = true) ∨
        (args.targetLengthMax.getD 0).num ≤ 0 then
      JsResult.thrown ErrorTag.configError
    else
      match args.sequencingStrategy with
      | none => JsResult.thrown ErrorTag.configError
      | some strat =>
        JsResult.ok
          { sampleSet := sampleSet
            targetLengthMin := args.targetLengthMin.getD 0
            targetLengthMax := args.targetLengthMax.getD 0
            sequencingStrategy := strat
            spellingStrategy := args.spellingStrategy
            seed := args.seed
            rng := RandomSeeded.create args.seed }

/-- A sequence of `generate` calls on one generator instance: the rng
state persists across calls (generator.mjs keeps `this._rng`). -/
def generateCalls (g : Generator) (fuel : Nat) :
    List Nat → List (JsResult (List (List Char)))
  | [] => []
  | n :: rest =>
    let (res, rng') := generate g fuel n
    res :: generateCalls { g with rng := rng' } fuel rest

/-- Construct a generator from `args` and run a sequence of `generate`
calls on it. -/
def runGeneratorCalls (args : GeneratorArgs) (fuel : Nat) (calls : List Nat) :
    JsResult (List (JsResult (List (List Char)))) :=
  match mkGenerator args with
  | JsResult.ok g => JsResult.ok (generateCalls g fuel calls)
  | JsResult.thrown t => JsResult.thrown t
  | JsResult.diverged => JsResult.diverged

/-! ### Helper definitions for the statements -/

/-- The probability field of an `AggregatedSequenceProbabilities` that
`filteredByType` selects on for a given role. -/
def roleProbability (it : AggregatedSequenceProbabilities) : SEQUENCE_TYPES → ℚ
  | SEQUENCE_TYPES.BEGINNING => it.probabilityBeginning
  | SEQUENCE_TYPES.MIDDLE => it.probabilityMiddle
  | SEQUENCE_TYPES.ENDING => it.probabilityEnding

/-- The frequency field of an `AggregatedSequence` backing a role. -/
def roleFrequency : SEQUENCE_TYPES → AggregatedSequence → ℕ
  | SEQUENCE_TYPES.BEGINNING => (·.frequencyBeginning)
  | SEQUENCE_TYPES.MIDDLE => (·.frequencyMiddle)
  | SEQUENCE_TYPES.ENDING => (·.frequencyEnding)

/-- What one successful word-assembly attempt produces, stated in terms
of the rng draw sequence: the rounded target from a range draw; a
beginning token drawn with the next unit draw and appended first; an
ending token drawn with the unit draw after that, its length counted
toward the target before any middle is drawn, appended last; middle
tokens all drawn from the middle table, drawn only while the
accumulated length (beginning + reserved ending + middles so far) is
strictly below the target, the final middle possibly overshooting it. -/
def assemblyCharacterization (probableBeginnings probableMiddles probableEndings :
    List ProbabilityAndSequence) (minLength maxLength : ℚ) (rng : RandomSeeded)
    (w : List Char) : Prop :=
  let t := (rng.generateRange minLength maxLength).1
  let rng0 := (rng.generateRange minLength maxLength).2
  let targetLength := jsRound t
  let r1 := rng0.generateUnit.1
  let rng1 := rng0.generateUnit.2
  let r2 := rng1.generateUnit.1
  (minLength ≤ maxLength → minLength ≤ t ∧ t ≤ maxLength) ∧
  ∃ (b e : ProbabilityAndSequence) (ms : List (List Char)),
    _getMatchingSequence probableBeginnings r1 = some b ∧
    _getMatchingSequence probableEndings r2 = some e ∧
    (∀ m ∈ ms, ∃ r item, _getMatchingSequence probableMiddles r = some item ∧
      item.sequence.chars = m) ∧
    (∀ k < ms.length,
      ((b.sequence.chars.length + e.sequence.chars.length
        + ((ms.take k).map List.length).sum : ℕ) : ℤ) < targetLength) ∧
    targetLength ≤ ((b.sequence.chars.length + e.sequence.chars.length
        + (ms.map List.length).sum : ℕ) : ℤ) ∧
    w = b.sequence.chars ++ ms.flatten ++ e.sequence.chars

/-! ### Concrete fixtures -/

/-- The `getSequencesOfSet` capability of a `CharDepthSequencingStrategy`
with depth 1 and default casing. -/
def charDepth1Strategy : List (List Char) → List Sequence :=
  getSequencesOfSet (getSequencesOfSample 1 false)

/-- Constructor arguments: corpus `["aba"]`, depth-1 sequencing, length
bounds 3-4, a spelling strategy that maps every word to `"x"`, seed
`"s"`. All constructor validation passes. -/
def argsAba : GeneratorArgs :=
  { sampleSet := some [['a', 'b', 'a']]
    targetLengthMin := some 3
    targetLengthMax := some 4
    sequencingStrategy := some charDepth1Strategy
    spellingStrategy := some (fun _ => ['x'])
    seed := some ['s'] }

/-- The generator `mkGenerator argsAba` constructs. -/
def genAba : Generator :=
  { sampleSet := [['a', 'b', 'a']]
    targetLengthMin := 3
    targetLengthMax := 4
    sequencingStrategy := charDepth1Strategy
    spellingStrategy := some (fun _ => ['x'])
    seed := some ['s']
    rng := RandomSeeded.create (some ['s']) }

/-- The pipeline probabilities for the corpus `["go"]` under CharDepth
depth 2: the single token `"go"` has positive probability only for the
beginning role. -/
def probsGo : List AggregatedSequenceProbabilities :=
  _getAggregatedSequenceProbabilities (_aggregateSequences
    (getSequencesOfSet (getSequencesOfSample 2 false) [['g', 'o']]))

/-- The pipeline probabilities for the corpus `["ab", "ab", "cd"]` under
CharDepth depth 2: beginning-role probabilities 2/3 (for `"ab"`) then
1/3 (for `"cd"`), in aggregation order. -/
def probsAbCd : List AggregatedSequenceProbabilities :=
  _getAggregatedSequenceProbabilities (_aggregateSequences
    (getSequencesOfSet (getSequencesOfSample 2 false) [['a', 'b'], ['a', 'b'], ['c', 'd']]))

/-- A generator over the corpus `["a"]` (depth 1): the single token is
both beginning and ending, so no token has a positive middle
probability and building the middle table throws. -/
def genA : Generator :=
  { sampleSet := [['a']]
    targetLengthMin := 1
    targetLengthMax := 1
    sequencingStrategy := charDepth1Strategy
    spellingStrategy := none
    seed := none
    rng := RandomSeeded.create none }

/-- A one-entry beginning/ending table over the token `"a"`. -/
def tblA : List ProbabilityAndSequence :=
  [{ probability := 1
     sequence := { chars := ['a'], frequencyBeginning := 1, frequencyMiddle := 0
                   frequencyEnding := 1, frequency := 2 } }]

/-- A one-entry middle table over the token `"b"`. -/
def tblBmid : List ProbabilityAndSequence :=
  [{ probability := 1
     sequence := { chars := ['b'], frequencyBeginning := 0, frequencyMiddle := 1
                   frequencyEnding := 0, frequency := 1 } }]

/-- The rng state seeded from `"s"`. -/
def rngS : RandomSeeded := RandomSeeded.create (some ['s'])

end WordGen

attribute [local semireducible] Rat.mul Rat.add Rat.sub Rat.inv

namespace WordGen

/-- C4 (amended): CharDepth tokenization with depth 2 applied to the
sample `"Go"` produces the single token `"go"` tagged `isBeginning` but
neither `isMiddle` nor `isEnding`: the chunk starts at offset 0 and a
character exists at offset 1, so `hasFollowingChar` is true and
`isEnding` — which requires the chunk to start at or after the sample's
last character — is false. -/
theorem charDepth_go_tokenization :
    getSequencesOfSample 2 false ['G', 'o'] =
      [{ chars := ['g', 'o'], isBeginning := true, isMiddle := false, isEnding := false }] := by
  decide

/-- C4 (counterexample): contrary to the claim, the single token
produced from `"Go"` at depth 2 is not tagged `isEnding`, so no token of
that sample is tagged both beginning and ending. -/
theorem charDepth_go_not_ending :
    (getSequencesOfSample 2 false ['G', 'o']).map Sequence.isEnding = [false] ∧
    ¬ ∃ t ∈ getSequencesOfSample 2 false ['G', 'o'],
        t.isBeginning = true ∧ t.isEnding = true := by
  decide

/-- C3 (counterexample): for the corpus `["go"]` at depth 2 no token has
a positive middle probability, and `_getWeightedProbabilities` for the
middle role throws (the final-entry adjustment dereferences the missing
last element of the empty table, modelled as `none`) instead of
returning an empty table. -/
theorem weighted_table_empty_role_throws :
    (∀ it ∈ probsGo, ¬ 0 < roleProbability it SEQUENCE_TYPES.MIDDLE) ∧
    _getWeightedProbabilities probsGo SEQUENCE_TYPES.MIDDLE = none := by
  decide

/-- C2 (counterexample): for the corpus `["ab", "ab", "cd"]` at depth 2,
the beginning-role table keeps the filter order: its entries' individual
probabilities are 2/3 then 1/3 — not ascending — because the sort
comparator at generator.mjs 319 returns `undefined` and the sort is a
no-op. The cumulative column is `[2/3, 1]` over the entries
`["ab", "cd"]`. -/
theorem weighted_table_not_sorted_ascending :
    (filteredByType probsAbCd SEQUENCE_TYPES.BEGINNING).map (·.probability) =
      [2 / 3, 1 / 3] ∧
    ¬ List.Chain' (· ≤ ·)
      ((filteredByType probsAbCd SEQUENCE_TYPES.BEGINNING).map (·.probability)) ∧
    Option.map (List.map (fun e => e.sequence.chars))
      (_getWeightedProbabilities probsAbCd SEQUENCE_TYPES.BEGINNING) =
      some [['a', 'b'], ['c', 'd']] ∧
    Option.map (List.map (fun e => e.probability))
      (_getWeightedProbabilities probsAbCd SEQUENCE_TYPES.BEGINNING) =
      some [2 / 3, 1] := by
  have h1 : (filteredByType probsAbCd SEQUENCE_TYPES.BEGINNING).map (·.probability) =
      [2 / 3, 1 / 3] := by decide
  refine ⟨h1, ?_, by decide, by decide⟩
  rw [h1]
  simp only [List.chain'_cons, List.chain'_singleton, and_true]
  norm_num

/-- The final-entry adjustment never produces an empty table. -/
theorem setLastProbabilityOne_ne_nil :
    ∀ (xs l : List ProbabilityAndSequence), setLastProbabilityOne xs = some l → l ≠ [] := by
  intro xs
  cases xs with
  | nil => intro l h; simp [setLastProbabilityOne] at h
  | cons e rest =>
    cases rest with
    | nil =>
      intro l h
      simp only [setLastProbabilityOne, Option.some_inj] at h
      simp [← h]
    | cons e2 rest2 =>
      intro l h
      simp only [setLastProbabilityOne, Option.map_eq_some'] at h
      obtain ⟨l', _, rfl⟩ := h
      simp

/-- The final-entry adjustment forces the last entry's cumulative
probability to exactly 1. -/
theorem setLastProbabilityOne_shape :
    ∀ (xs l : List ProbabilityAndSequence), setLastProbabilityOne xs = some l →
      ∃ l₀ s, l = l₀ ++ [{ probability := 1, sequence := s }] := by
  intro xs
  induction xs with
  | nil => intro l h; simp [setLastProbabilityOne] at h
  | cons e rest ih =>
    cases rest with
    | nil =>
      intro l h
      simp only [setLastProbabilityOne, Option.some_inj] at h
      exact ⟨[], e.sequence, by simp [← h]⟩
    | cons e2 rest2 =>
      intro l h
      simp only [setLastProbabilityOne, Option.map_eq_some'] at h
      obtain ⟨l', hl', rfl⟩ := h
      obtain ⟨l₀, s, rfl⟩ := ih l' hl'
      exact ⟨e :: l₀, s, by simp⟩

/-- C3 (amended): when no token has a non-zero probability for the
requested role, `_getWeightedProbabilities` throws (the final-entry
adjustment accesses the missing last element of the empty cumulative
table, modelled `none`) rather than returning an empty table; indeed it
can never return an empty table. -/
theorem weighted_table_no_positive_role_none
    (probs : List AggregatedSequenceProbabilities) (type : SEQUENCE_TYPES) :
    ((∀ it ∈ probs, ¬ 0 < roleProbability it type) →
      _getWeightedProbabilities probs type = none) ∧
    _getWeightedProbabilities probs type ≠ some [] := by
  constructor
  · intro hall
    have hfil : filteredByType probs type = [] := by
      cases type <;>
        simp only [filteredByType, List.map_eq_nil_iff, List.filter_eq_nil_iff] <;>
        · intro a ha
          have := hall a ha
          simp only [roleProbability] at this
          simpa using this
    simp [_getWeightedProbabilities, hfil, cumulativeScan, setLastProbabilityOne]
  · intro h
    exact setLastProbabilityOne_ne_nil _ _ h rfl

/-- C3 (witness): the middle role of the `["go"]` corpus instantiates
the amended claim. -/
theorem weighted_table_no_positive_role_none_witness :
    _getWeightedProbabilities probsGo SEQUENCE_TYPES.MIDDLE = none :=
  (weighted_table_no_positive_role_none probsGo SEQUENCE_TYPES.MIDDLE).1 (by decide)

/-- Scanning a table whose final entry has cumulative probability 1
always finds a match for a draw value at most 1. -/
theorem getMatchingSequence_append_last_one :
    ∀ (l₀ : List ProbabilityAndSequence) (s : AggregatedSequence) (r : ℚ), r ≤ 1 →
      ∃ e, _getMatchingSequence (l₀ ++ [{ probability := 1, sequence := s }]) r = some e := by
  intro l₀
  induction l₀ with
  | nil =>
    intro s r hr
    exact ⟨{ probability := 1, sequence := s }, by simp [_getMatchingSequence, hr]⟩
  | cons h t ih =>
    intro s r hr
    by_cases hc : r ≤ h.probability
    · exact ⟨h, by simp [_getMatchingSequence, hc]⟩
    · obtain ⟨e, he⟩ := ih s r hr
      exact ⟨e, by simp [_getMatchingSequence, hc, he]⟩

/-- C9: `_getMatchingSequence` is exactly "first entry (in table order)
whose cumulative probability is at least the draw value"; it fails on
the empty table; and on any table `_getWeightedProbabilities` actually
returns (whose final entry was forced to exactly 1), every draw value in
`[0, 1]` matches some entry, so the sampling-error branch is unreachable
there. -/
theorem draw_total_on_built_tables :
    (∀ (tbl : List ProbabilityAndSequence) (v : ℚ),
      _getMatchingSequence tbl v = tbl.find? (fun e => decide (v ≤ e.probability))) ∧
    (∀ v : ℚ, _getMatchingSequence [] v = none) ∧
    ∀ (probs : List AggregatedSequenceProbabilities) (type : SEQUENCE_TYPES)
      (l : List ProbabilityAndSequence) (r : ℚ),
      _getWeightedProbabilities probs type = some l → 0 ≤ r → r ≤ 1 →
      ∃ e, _getMatchingSequence l r = some e := by
  refine ⟨?_, fun v => rfl, ?_⟩
  · intro tbl
    induction tbl with
    | nil => intro v; simp [_getMatchingSequence]
    | cons h t ih =>
      intro v
      by_cases hc : v ≤ h.probability <;> simp [_getMatchingSequence, List.find?_cons, hc, ih]
  · intro probs type l r hsome _ hr1
    have hshape := setLastProbabilityOne_shape _ _ hsome
    obtain ⟨l₀, s, rfl⟩ := hshape
    exact getMatchingSequence_append_last_one l₀ s r hr1

/-- C9 (witness): the beginning table of the `["go"]` corpus and the
draw value 1/2. -/
theorem draw_total_on_built_tables_witness :
    ∃ e, _getMatchingSequence
      [{ probability := 1
         sequence := { chars := ['g', 'o'], frequencyBeginning := 1, frequencyMiddle := 0
                       frequencyEnding := 0, frequency := 1 } }] (1 / 2) = some e :=
  draw_total_on_built_tables.2.2 probsGo SEQUENCE_TYPES.BEGINNING _ (1 / 2)
    (by decide) (by norm_num) (by norm_num)

/-- Arithmetic step for peeling one chunk off the ending
characterization. -/
theorem mod_chunk_step (n d : ℕ) (_hd : 1 ≤ d) (hn : 2 ≤ n) :
    ((n - d ≠ 0) ∧ (n - d - 1) % d = 0) ↔ (n - 1) % d = 0 := by
  constructor
  · rintro ⟨h1, h2⟩
    have heq : n - 1 = (n - d - 1) + d := by omega
    rw [heq, Nat.add_mod_right]
    exact h2
  · intro h
    have hdvd : d ∣ (n - 1) := Nat.dvd_of_mod_eq_zero h
    have hle : d ≤ n - 1 := Nat.le_of_dvd (by omega) hdvd
    refine ⟨by omega, ?_⟩
    have hdvd2 : d ∣ (n - 1 - d) := Nat.dvd_sub' hdvd dvd_rfl
    have heq : n - d - 1 = n - 1 - d := by omega
    rw [heq]
    exact Nat.mod_eq_zero_of_dvd hdvd2

/-- The last chunk has length exactly 1 iff `d = 1` or
`L % d = 1`. -/
theorem mod_last_chunk (L d : ℕ) (hd : 1 ≤ d) (hL : 1 ≤ L) :
    (L - 1) % d = 0 ↔ (d = 1 ∨ L % d = 1) := by
  rcases Nat.lt_or_ge 1 d with h2 | h1
  · constructor
    · intro h
      right
      have heq : L = (L - 1) + 1 := by omega
      rw [heq, Nat.add_mod, h]
      simp [Nat.mod_eq_of_lt h2]
    · rintro (h | h)
      · omega
      · have hdm := Nat.div_add_mod L d
        have heq : L - 1 = d * (L / d) := by omega
        rw [heq]
        exact Nat.mul_mod_right d (L / d)
  · have hd1 : d = 1 := by omega
    simp [hd1, Nat.mod_one]

/-- A token of the char-depth chunking loop is tagged `isEnding` iff the
suffix it was produced from had length 1, which happens iff the suffix
length is congruent to 1 modulo the stride (`(length - 1) % depth = 0`). -/
theorem charDepthAux_ending_exists (d : ℕ) (pc : Bool) (hd : 1 ≤ d) :
    ∀ (fuel : ℕ) (first : Bool) (rest : List Char), rest.length ≤ fuel →
      ((∃ t ∈ getSequencesOfSampleAux d pc fuel first rest, t.isEnding = true) ↔
        (rest ≠ [] ∧ (rest.length - 1) % d = 0)) := by
  intro fuel
  induction fuel with
  | zero =>
    intro first rest hlen
    have : rest = [] := by
      cases rest with
      | nil => rfl
      | cons c cs => simp at hlen
    subst this
    simp [getSequencesOfSampleAux]
  | succ fuel ih =>
    intro first rest hlen
    cases rest with
    | nil => simp [getSequencesOfSampleAux]
    | cons c cs =>
      cases cs with
      | nil =>
        simp [getSequencesOfSampleAux]
      | cons c2 cs2 =>
        have hlen' : ((c2 :: cs2).drop (d - 1)).length ≤ fuel := by
          simp only [List.length_drop, List.length_cons]
          simp only [List.length_cons] at hlen
          omega
        have hrec := ih false ((c2 :: cs2).drop (d - 1)) hlen'
        have hlen2 : ((c2 :: cs2).drop (d - 1)).length = (cs2.length + 2) - d := by
          simp only [List.length_drop, List.length_cons]
          omega
        constructor
        · rintro ⟨t, ht, hend⟩
          simp only [getSequencesOfSampleAux, List.mem_cons] at ht
          rcases ht with rfl | ht
          · simp at hend
          · have h1 := hrec.mp ⟨t, ht, hend⟩
            refine ⟨by simp, ?_⟩
            have h2 : ((c2 :: cs2).drop (d - 1)) ≠ [] ∧
                (((c2 :: cs2).drop (d - 1)).length - 1) % d = 0 := h1
            have h3 : ((cs2.length + 2) - d ≠ 0) ∧ ((cs2.length + 2) - d - 1) % d = 0 := by
              constructor
              · intro hzero
                apply h2.1
                have := h2.1
                rw [← List.length_eq_zero]
                omega
              · rw [← hlen2]; exact h2.2
            have := (mod_chunk_step (cs2.length + 2) d hd (by omega)).mp h3
            simpa using this
        · rintro ⟨-, hmod⟩
          have hmod' : (cs2.length + 2 - 1) % d = 0 := by simpa using hmod
          have h3 := (mod_chunk_step (cs2.length + 2) d hd (by omega)).mpr hmod'
          have h4 : ((c2 :: cs2).drop (d - 1)) ≠ [] ∧
              (((c2 :: cs2).drop (d - 1)).length - 1) % d = 0 := by
            constructor
            · rw [← List.length_pos, hlen2]
              omega
            · rw [hlen2]; exact h3.2
          obtain ⟨t, ht, hend⟩ := hrec.mpr h4
          exact ⟨t, by simp [getSequencesOfSampleAux, List.mem_cons]; right; exact ht, hend⟩

/-- Only the final chunk's token can be tagged `isEnding`: whenever an
ending-tagged token occurs in the chunking loop's output, it is the last
token. -/
theorem charDepthAux_ending_last (d : ℕ) (pc : Bool) :
    ∀ (fuel : ℕ) (first : Bool) (rest : List Char)
      (ts₁ : List Sequence) (t : Sequence) (ts₂ : List Sequence),
      getSequencesOfSampleAux d pc fuel first rest = ts₁ ++ t :: ts₂ →
      t.isEnding = true → ts₂ = [] := by
  intro fuel
  induction fuel with
  | zero =>
    intro first rest ts₁ t ts₂ heq _
    have : getSequencesOfSampleAux d pc 0 first rest = [] := by
      cases rest <;> simp [getSequencesOfSampleAux]
    rw [this] at heq
    exact absurd heq.symm (by simp)
  | succ fuel ih =>
    intro first rest ts₁ t ts₂ heq hend
    cases rest with
    | nil =>
      simp only [getSequencesOfSampleAux] at heq
      exact absurd heq.symm (by simp)
    | cons c cs =>
      simp only [getSequencesOfSampleAux] at heq
      cases ts₁ with
      | nil =>
        simp only [List.nil_append, List.cons.injEq] at heq
        obtain ⟨rfl, heq2⟩ := heq
        simp only at hend
        have hcs : cs = [] := by
          cases cs with
          | nil => rfl
          | cons c2 cs2 => simp at hend
        subst hcs
        rw [← heq2]
        simp [getSequencesOfSampleAux]
      | cons h ts₁' =>
        simp only [List.cons_append, List.cons.injEq] at heq
        exact ih false (cs.drop (d - 1)) ts₁' t ts₂ heq.2 hend

/-- If no token is ending-tagged, aggregation keeps every record's
`frequencyEnding` at 0. -/
theorem aggregate_frequencyEnding_zero :
    ∀ (sequences : List Sequence) (l : List AggregatedSequence),
      (∀ t ∈ sequences, t.isEnding = false) → (∀ a ∈ l, a.frequencyEnding = 0) →
      ∀ a ∈ List.foldl aggregateStep l sequences, a.frequencyEnding = 0 := by
  intro sequences
  induction sequences with
  | nil => intro l _ hl a ha; exact hl a ha
  | cons s rest ih =>
    intro l hseq hl a ha
    refine ih (aggregateStep l s) (fun t ht => hseq t (List.mem_cons_of_mem s ht)) ?_ a ha
    have hsend : s.isEnding = false := hseq s (List.mem_cons_self s rest)
    intro b hb
    simp only [aggregateStep] at hb
    split at hb
    · obtain ⟨c, hc, rfl⟩ := List.mem_map.mp hb
      split
      · simp [bumpAggregated, hsend, hl c hc]
      · exact hl c hc
    · rcases List.mem_append.mp hb with hc | hc
      · exact hl b hc
      · simp only [List.mem_singleton] at hc
        subst hc
        simp [bumpAggregated, hsend]

/-- C10: for CharDepth with depth `d ≥ 1` on a non-empty sample, some
token is tagged `isEnding` iff `d = 1` or the sample length is congruent
to 1 mod `d` (i.e. the final chunk has length exactly 1); only the final
chunk's token is ever so tagged; and at depth 2 a corpus of even-length
samples gives every aggregated token an ending frequency of zero. -/
theorem charDepth_ending_characterization :
    ∀ (d : ℕ) (pc : Bool) (s : List Char), 1 ≤ d → s ≠ [] →
      ((∃ t ∈ getSequencesOfSample d pc s, t.isEnding = true) ↔
        (d = 1 ∨ s.length % d = 1)) ∧
      (∀ (ts₁ : List Sequence) (t : Sequence) (ts₂ : List Sequence),
        getSequencesOfSample d pc s = ts₁ ++ t :: ts₂ → t.isEnding = true → ts₂ = []) ∧
      ∀ (pc' : Bool) (samples : List (List Char)),
        (∀ x ∈ samples, x.length % 2 = 0) →
        ∀ a ∈ _aggregateSequences (getSequencesOfSet (getSequencesOfSample 2 pc') samples),
          a.frequencyEnding = 0 := by
  intro d pc s hd hs
  refine ⟨?_, ?_, ?_⟩
  · have h1 := charDepthAux_ending_exists d pc hd s.length true s le_rfl
    have hL : 1 ≤ s.length := List.length_pos.mpr hs
    have h2 := mod_last_chunk s.length d hd hL
    unfold getSequencesOfSample
    rw [h1]
    simp only [hs, ne_eq, not_false_eq_true, true_and]
    exact h2
  · intro ts₁ t ts₂ h hend
    exact charDepthAux_ending_last d pc s.length true s ts₁ t ts₂ h hend
  · intro pc' samples hsamp
    apply aggregate_frequencyEnding_zero
    · intro t ht
      simp only [getSequencesOfSet, List.mem_flatten, List.mem_map] at ht
      obtain ⟨l, ⟨x, hx, rfl⟩, htx⟩ := ht
      by_contra hne
      have htrue : t.isEnding = true := by
        cases hb : t.isEnding
        · exact absurd hb hne
        · rfl
      have hex : ∃ t' ∈ getSequencesOfSampleAux 2 pc' x.length true x, t'.isEnding = true :=
        ⟨t, htx, htrue⟩
      have := (charDepthAux_ending_exists 2 pc' (by norm_num) x.length true x le_rfl).mp hex
      obtain ⟨hxne, hmod⟩ := this
      have hxlen : 1 ≤ x.length := List.length_pos.mpr hxne
      have heven := hsamp x hx
      omega
    · intro a ha
      simp at ha

/-- C10 (witness): depth 2 on the sample `"go"` (length 2): no token is
tagged ending, and an even-length corpus has all ending frequencies
zero. -/
theorem charDepth_ending_characterization_witness :
    1 ≤ 2 ∧ (['g', 'o'] : List Char) ≠ [] ∧
    (((∃ t ∈ getSequencesOfSample 2 false ['g', 'o'], t.isEnding = true) ↔
        (2 = 1 ∨ (['g', 'o'] : List Char).length % 2 = 1)) ∧
      (∀ (ts₁ : List Sequence) (t : Sequence) (ts₂ : List Sequence),
        getSequencesOfSample 2 false ['g', 'o'] = ts₁ ++ t :: ts₂ →
        t.isEnding = true → ts₂ = []) ∧
      ∀ (pc' : Bool) (samples : List (List Char)),
        (∀ x ∈ samples, x.length % 2 = 0) →
        ∀ a ∈ _aggregateSequences (getSequencesOfSet (getSequencesOfSample 2 pc') samples),
          a.frequencyEnding = 0) :=
  ⟨by norm_num, by decide,
    charDepth_ending_characterization 2 false ['g', 'o'] (by norm_num) (by decide)⟩

/-- Summing `f a / T` over the entries kept by the positivity filter
equals the full sum divided by `T` (dropped entries contribute 0). -/
theorem sum_filter_div (l : List AggregatedSequence) (f : AggregatedSequence → ℕ) (T : ℚ) :
    ((l.filter (fun a => decide (0 < f a))).map (fun a => (f a : ℚ) / T)).sum =
      ((l.map (fun a => (f a : ℚ))).sum) / T := by
  induction l with
  | nil => simp
  | cons a rest ih =>
    by_cases h : 0 < f a
    · simp [List.filter_cons, h, ih, add_div]
    · have hz : f a = 0 := by omega
      simp [List.filter_cons, h, ih, hz]

/-- Filtering the mapped probability records by role positivity and
reading the role probability back off is the same as filtering the
aggregated records by role frequency positivity and dividing by the role
total. -/
theorem filter_map_role (l : List AggregatedSequence)
    (F : AggregatedSequence → AggregatedSequenceProbabilities)
    (sel : AggregatedSequenceProbabilities → ℚ) (f : AggregatedSequence → ℕ) (T : ℚ)
    (hsel : ∀ a, sel (F a) = if 0 < f a then (f a : ℚ) / T else 0)
    (hT : ∀ a ∈ l, 0 < f a → 0 < T) :
    ((l.map F).filter (fun it => decide (0 < sel it))).map sel =
      (l.filter (fun a => decide (0 < f a))).map (fun a => (f a : ℚ) / T) := by
  induction l with
  | nil => simp
  | cons a rest ih =>
    have ih' := ih (fun b hb hpos => hT b (List.mem_cons_of_mem _ hb) hpos)
    by_cases h : 0 < f a
    · have hTpos : 0 < T := hT a (List.mem_cons_self a rest) h
      have hval : sel (F a) = (f a : ℚ) / T := by rw [hsel]; simp [h]
      have hpos : 0 < sel (F a) := by
        rw [hval]
        exact div_pos (by exact_mod_cast h) hTpos
      simp only [List.map_cons, List.filter_cons, hpos, h, decide_eq_true_eq, if_pos]
      rw [hval, ih']
    · have hval : sel (F a) = 0 := by rw [hsel]; simp [h]
      have hneg : ¬ 0 < sel (F a) := by rw [hval]; exact lt_irrefl 0
      simp [List.filter_cons, List.map_cons, hneg, h, ih']

/-- Every entry of a filtered role table has positive (individual)
probability. -/
theorem filteredByType_pos (probs : List AggregatedSequenceProbabilities)
    (type : SEQUENCE_TYPES) :
    ∀ x ∈ filteredByType probs type, 0 < x.probability := by
  intro x hx
  cases type <;>
  · simp only [filteredByType, List.mem_map, List.mem_filter] at hx
    obtain ⟨it, ⟨_, hpos⟩, rfl⟩ := hx
    simpa using hpos

/-- The individual probabilities of a role's filtered table, read off
the aggregated records: each kept entry contributes its role frequency
divided by the role total. -/
theorem filteredByType_probs (agg : List AggregatedSequence) (type : SEQUENCE_TYPES) :
    (filteredByType (_getAggregatedSequenceProbabilities agg) type).map (·.probability) =
      (agg.filter (fun a => decide (0 < roleFrequency type a))).map
        (fun a => (roleFrequency type a : ℚ) /
          (((agg.map (roleFrequency type)).sum : ℕ) : ℚ)) := by
  have hT : ∀ (f : AggregatedSequence → ℕ) (a : AggregatedSequence), a ∈ agg → 0 < f a →
      (0 : ℚ) < (((agg.map f).sum : ℕ) : ℚ) := by
    intro f a ha hpos
    have h1 : f a ∈ agg.map f := List.mem_map_of_mem f ha
    have h2 : f a ≤ (agg.map f).sum := List.single_le_sum (fun b _ => Nat.zero_le b) _ h1
    exact_mod_cast Nat.lt_of_lt_of_le hpos h2
  cases type
  case BEGINNING =>
    simp only [filteredByType, _getAggregatedSequenceProbabilities, List.map_map]
    exact filter_map_role agg _ (·.probabilityBeginning) (·.frequencyBeginning) _
      (fun a => rfl) (hT _)
  case MIDDLE =>
    simp only [filteredByType, _getAggregatedSequenceProbabilities, List.map_map]
    exact filter_map_role agg _ (·.probabilityMiddle) (·.frequencyMiddle) _
      (fun a => rfl) (hT _)
  case ENDING =>
    simp only [filteredByType, _getAggregatedSequenceProbabilities, List.map_map]
    exact filter_map_role agg _ (·.probabilityEnding) (·.frequencyEnding) _
      (fun a => rfl) (hT _)

/-- For tables built over pipeline probabilities, the individual
probabilities of the kept entries sum to exactly 1. -/
theorem filteredByType_sum_one (agg : List AggregatedSequence) (type : SEQUENCE_TYPES)
    (hne : filteredByType (_getAggregatedSequenceProbabilities agg) type ≠ []) :
    ((filteredByType (_getAggregatedSequenceProbabilities agg) type).map
      (·.probability)).sum = 1 := by
  rw [filteredByType_probs]
  rw [sum_filter_div]
  set f := roleFrequency type with hf
  have hcast : (agg.map (fun a => ((f a : ℕ) : ℚ))).sum = (((agg.map f).sum : ℕ) : ℚ) := by
    rw [Nat.cast_list_sum, List.map_map]
    rfl
  rw [hcast]
  have hT : (((agg.map f).sum : ℕ) : ℚ) ≠ 0 := by
    have hmapped := filteredByType_probs agg type
    rw [← hf] at hmapped
    have hne2 : (agg.filter (fun a => decide (0 < f a))).map
        (fun a => (f a : ℚ) / (((agg.map f).sum : ℕ) : ℚ)) ≠ [] := by
      intro hnil
      apply hne
      have := hmapped.trans hnil
      exact List.map_eq_nil_iff.mp this
    have : agg.filter (fun a => decide (0 < f a)) ≠ [] := by
      intro hnil
      exact hne2 (by rw [hnil]; rfl)
    obtain ⟨a, ha⟩ := List.exists_mem_of_ne_nil _ this
    have hmem := List.mem_filter.mp ha
    have hpos : 0 < f a := by simpa using hmem.2
    have h1 : f a ∈ agg.map f := List.mem_map_of_mem f hmem.1
    have h2 : f a ≤ (agg.map f).sum := List.single_le_sum (fun b _ => Nat.zero_le b) _ h1
    have : (0 : ℚ) < (((agg.map f).sum : ℕ) : ℚ) := by
      exact_mod_cast Nat.lt_of_lt_of_le hpos h2
    exact ne_of_gt this
  exact div_self hT

/-- The cumulative scan of a non-empty list is non-empty. -/
theorem cumulativeScan_eq_nil (acc : ℚ) :
    ∀ xs : List ProbabilityAndSequence, cumulativeScan acc xs = [] → xs = [] := by
  intro xs h
  cases xs with
  | nil => rfl
  | cons x t => simp [cumulativeScan] at h

/-- Shape of the final-entry adjustment on a cons: either the list was a
singleton (and is replaced by the forced entry) or the head is kept and
the adjustment recurses. -/
theorem setLastProbabilityOne_head (e : ProbabilityAndSequence)
    (rest : List ProbabilityAndSequence) (m : List ProbabilityAndSequence)
    (h : setLastProbabilityOne (e :: rest) = some m) :
    (rest = [] ∧ m = [{ probability := 1, sequence := e.sequence }]) ∨
    (∃ m', m = e :: m' ∧ setLastProbabilityOne rest = some m') := by
  cases rest with
  | nil =>
    left
    simp only [setLastProbabilityOne, Option.some_inj] at h
    exact ⟨rfl, h.symm⟩
  | cons e2 r2 =>
    right
    simp only [setLastProbabilityOne, Option.map_eq_some'] at h
    obtain ⟨m', hm', rfl⟩ := h
    exact ⟨m', rfl, hm'⟩

/-- Master lemma for the weighted table: over entries with positive
individual probabilities summing (with the accumulator) to exactly 1,
the cumulative scan followed by the final-entry adjustment preserves the
sequence order, yields a non-decreasing cumulative column, and ends at
exactly 1. -/
theorem weighted_chain_master :
    ∀ (xs : List ProbabilityAndSequence) (acc : ℚ) (l : List ProbabilityAndSequence),
      (∀ x ∈ xs, 0 < x.probability) →
      acc + (xs.map (·.probability)).sum = 1 →
      setLastProbabilityOne (cumulativeScan acc xs) = some l →
      l.map (·.sequence) = xs.map (·.sequence) ∧
      List.Chain' (· ≤ ·) (l.map (·.probability)) ∧
      (l.map (·.probability)).getLast? = some 1 := by
  intro xs
  induction xs with
  | nil =>
    intro acc l _ _ h
    simp [cumulativeScan, setLastProbabilityOne] at h
  | cons x xs' ih =>
    intro acc l hpos hsum hsome
    cases xs' with
    | nil =>
      simp only [cumulativeScan, setLastProbabilityOne, Option.some_inj] at hsome
      subst hsome
      refine ⟨by simp, by simp, by simp⟩
    | cons y t =>
      have hc : cumulativeScan acc (x :: y :: t) =
          { probability := acc + x.probability, sequence := x.sequence } ::
            cumulativeScan (acc + x.probability) (y :: t) := rfl
      have hc2 : cumulativeScan (acc + x.probability) (y :: t) =
          { probability := acc + x.probability + y.probability, sequence := y.sequence } ::
            cumulativeScan (acc + x.probability + y.probability) t := rfl
      rw [hc, hc2] at hsome
      simp only [setLastProbabilityOne, Option.map_eq_some'] at hsome
      obtain ⟨l₂, hl₂, rfl⟩ := hsome
      rw [← hc2] at hl₂
      have hsum' : (acc + x.probability) + ((y :: t).map (·.probability)).sum = 1 := by
        rw [List.map_cons, List.sum_cons] at hsum
        linarith
      have ihres := ih (acc + x.probability) l₂
        (fun z hz => hpos z (List.mem_cons_of_mem _ hz)) hsum' hl₂
      obtain ⟨hseq, hchain, hlast⟩ := ihres
      have hypos : 0 < y.probability := hpos y (by simp)
      have hhead := setLastProbabilityOne_head _ _ _ (hc2 ▸ hl₂)
      refine ⟨by simp [hseq], ?_, ?_⟩
      · rcases hhead with ⟨hrest, rfl⟩ | ⟨m', rfl, _⟩
        · have ht : t = [] := cumulativeScan_eq_nil _ _ hrest
          subst ht
          simp only [List.map_cons, List.map_nil]
          rw [List.chain'_cons]
          constructor
          · rw [List.map_cons, List.sum_cons, List.map_nil, List.sum_nil] at hsum'
            linarith
          · simp
        · simp only [List.map_cons]
          rw [List.chain'_cons]
          constructor
          · show acc + x.probability ≤ acc + x.probability + y.probability
            linarith
          · simpa using hchain
      · have hne := setLastProbabilityOne_ne_nil _ _ hl₂
        cases l₂ with
        | nil => exact absurd rfl hne
        | cons h2 t2 =>
          simp only [List.map_cons, List.getLast?_cons_cons]
          simpa using hlast

/-- C2 (amended): on tables built from the pipeline's probabilities, the
entries keep the filtered (first-occurrence) order — the sort call is a
no-op — while the cumulative column is non-decreasing and the final
entry's cumulative probability is exactly 1. -/
theorem weighted_table_order_cumulative_final :
    ∀ (agg : List AggregatedSequence) (type : SEQUENCE_TYPES)
      (l : List ProbabilityAndSequence),
      _getWeightedProbabilities (_getAggregatedSequenceProbabilities agg) type = some l →
      l.map (·.sequence) =
        (filteredByType (_getAggregatedSequenceProbabilities agg) type).map (·.sequence) ∧
      List.Chain' (· ≤ ·) (l.map (·.probability)) ∧
      (l.map (·.probability)).getLast? = some 1 := by
  intro agg type l hsome
  have hsome' : setLastProbabilityOne (cumulativeScan 0
      (filteredByType (_getAggregatedSequenceProbabilities agg) type)) = some l := hsome
  have hne : filteredByType (_getAggregatedSequenceProbabilities agg) type ≠ [] := by
    intro h
    rw [h] at hsome'
    simp [cumulativeScan, setLastProbabilityOne] at hsome'
  have hpos := filteredByType_pos (_getAggregatedSequenceProbabilities agg) type
  have hsum : (0 : ℚ) +
      ((filteredByType (_getAggregatedSequenceProbabilities agg) type).map
        (·.probability)).sum = 1 := by
    rw [zero_add]
    exact filteredByType_sum_one agg type hne
  obtain ⟨h1, h2, h3⟩ := weighted_chain_master _ 0 l hpos hsum hsome'
  exact ⟨h1, h2, h3⟩

/-- C2 (witness): the beginning table of the corpus
`["ab", "ab", "cd"]` at depth 2. -/
theorem weighted_table_order_cumulative_final_witness :
    ([{ probability := 2 / 3
        sequence := { chars := ['a', 'b'], frequencyBeginning := 2, frequencyMiddle := 0
                      frequencyEnding := 0, frequency := 2 } },
      { probability := 1
        sequence := { chars := ['c', 'd'], frequencyBeginning := 1, frequencyMiddle := 0
                      frequencyEnding := 0, frequency := 1 } }] :
        List ProbabilityAndSequence).map (·.sequence) =
      (filteredByType probsAbCd SEQUENCE_TYPES.BEGINNING).map (·.sequence) ∧
    List.Chain' (· ≤ ·)
      (([{ probability := 2 / 3
           sequence := { chars := ['a', 'b'], frequencyBeginning := 2, frequencyMiddle := 0
                         frequencyEnding := 0, frequency := 2 } },
         { probability := 1
           sequence := { chars := ['c', 'd'], frequencyBeginning := 1, frequencyMiddle := 0
                         frequencyEnding := 0, frequency := 1 } }] :
          List ProbabilityAndSequence).map (·.probability)) ∧
    (([{ probability := 2 / 3
         sequence := { chars := ['a', 'b'], frequencyBeginning := 2, frequencyMiddle := 0
                       frequencyEnding := 0, frequency := 2 } },
       { probability := 1
         sequence := { chars := ['c', 'd'], frequencyBeginning := 1, frequencyMiddle := 0
                       frequencyEnding := 0, frequency := 1 } }] :
        List ProbabilityAndSequence).map (·.probability)).getLast? = some 1 :=
  weighted_table_order_cumulative_final
    (_aggregateSequences
      (getSequencesOfSet (getSequencesOfSample 2 false) [['a', 'b'], ['a', 'b'], ['c', 'd']]))
    SEQUENCE_TYPES.BEGINNING _ (by decide)

/-- The unit draw lies in `[0, 1)`. -/
theorem generateUnit_bounds (rng : RandomSeeded) :
    0 ≤ rng.generateUnit.1 ∧ rng.generateUnit.1 < 1 := by
  unfold RandomSeeded.generateUnit
  constructor
  · positivity
  · rw [div_lt_one (by positivity)]
    have hlt : lcgNext rng.state < 2 ^ 32 := Nat.mod_lt _ (by norm_num)
    exact_mod_cast hlt

/-- The range draw lies in `[lo, hi]` whenever `lo ≤ hi`. -/
theorem generateRange_bounds (rng : RandomSeeded) (lo hi : ℚ) (h : lo ≤ hi) :
    lo ≤ (rng.generateRange lo hi).1 ∧ (rng.generateRange lo hi).1 ≤ hi := by
  obtain ⟨h0, h1⟩ := generateUnit_bounds rng
  unfold RandomSeeded.generateRange
  constructor
  · have : 0 ≤ rng.generateUnit.1 * (hi - lo) := by
      apply mul_nonneg h0
      linarith
    simp only []
    linarith
  · have : rng.generateUnit.1 * (hi - lo) ≤ hi - lo :=
      mul_le_of_le_one_left (by linarith) (le_of_lt h1)
    simp only []
    linarith

/-- Invariant of the middle-token `while` loop: on a normal exit, the
appended middles extend the accumulator; their lengths account exactly
for the growth of `charactersLength`; every middle was drawn while the
running length was still strictly below the target; the final length
meets or exceeds the target; and every appended middle is a successful
draw from the middle table. -/
theorem middleLoop_ok_characterization
    (pM : List ProbabilityAndSequence) (target : ℤ) :
    ∀ (fuel len : ℕ) (acc : List (List Char)) (rng : RandomSeeded)
      (ms : List (List Char)) (lenF : ℕ) (rngF : RandomSeeded),
      middleLoop pM target fuel len acc rng = (JsResult.ok (ms, lenF), rngF) →
      ∃ new : List (List Char),
        ms = acc ++ new ∧
        lenF = len + (new.map List.length).sum ∧
        (∀ k < new.length, ((len + ((new.take k).map List.length).sum : ℕ) : ℤ) < target) ∧
        target ≤ (lenF : ℤ) ∧
        ∀ m ∈ new, ∃ (r : ℚ) (item : ProbabilityAndSequence),
          _getMatchingSequence pM r = some item ∧ item.sequence.chars = m := by
  intro fuel
  induction fuel with
  | zero =>
    intro len acc rng ms lenF rngF h
    simp only [middleLoop] at h
    split at h
    · exact absurd h (by simp)
    · simp only [Prod.mk.injEq, JsResult.ok.injEq] at h
      obtain ⟨⟨rfl, rfl⟩, -⟩ := h
      refine ⟨[], by simp, by simp, by simp, ?_, by simp⟩
      omega
  | succ fuel ih =>
    intro len acc rng ms lenF rngF h
    simp only [middleLoop] at h
    split at h
    case isTrue hlt =>
      rcases hu : rng.generateUnit with ⟨r, rng'⟩
      rw [hu] at h
      simp only [] at h
      cases hd : _getMatchingSequence pM r with
      | none => rw [hd] at h; exact absurd h (by simp)
      | some item =>
        rw [hd] at h
        simp only [] at h
        obtain ⟨new', hms, hlen, hpart, htar, hmem⟩ :=
          ih (len + item.sequence.chars.length) (acc ++ [item.sequence.chars]) rng'
            ms lenF rngF h
        refine ⟨item.sequence.chars :: new', by simp [hms], by simp [hlen]; ring, ?_, htar, ?_⟩
        · intro k hk
          cases k with
          | zero => simpa using hlt
          | succ j =>
            have hj : j < new'.length := by simpa using hk
            have := hpart j hj
            simp only [List.take_succ_cons, List.map_cons, List.sum_cons]
            convert this using 2
            ring
        · intro m hm
          rcases List.mem_cons.mp hm with rfl | hm'
          · exact ⟨r, item, hd, rfl⟩
          · exact hmem m hm'
    case isFalse hge =>
      simp only [Prod.mk.injEq, JsResult.ok.injEq] at h
      obtain ⟨⟨rfl, rfl⟩, -⟩ := h
      refine ⟨[], by simp, by simp, by simp, ?_, by simp⟩
      omega

/-- C6: a successful single word-assembly attempt matches the claimed
draw discipline: rounded target from a range draw over the length
bounds; beginning drawn and appended first; ending drawn next, its
length counted toward the target before any middle; middles drawn only
while the accumulated length is strictly below the target (the final one
may overshoot); the reserved ending appended last. -/
theorem generateSingleWord_characterization :
    ∀ (probableBeginnings probableMiddles probableEndings : List ProbabilityAndSequence)
      (minLength maxLength : ℚ) (fuel : ℕ) (rng rngF : RandomSeeded) (w : List Char),
      _generateSingleWord probableBeginnings probableMiddles probableEndings
        minLength maxLength fuel rng = (JsResult.ok w, rngF) →
      assemblyCharacterization probableBeginnings probableMiddles probableEndings
        minLength maxLength rng w := by
  intro pB pM pE minLength maxLength fuel rng rngF w h
  unfold _generateSingleWord at h
  unfold assemblyCharacterization
  rcases hr : rng.generateRange minLength maxLength with ⟨t, rng0⟩
  rw [hr] at h
  dsimp only at h
  rcases hu1 : rng0.generateUnit with ⟨r1, rng1⟩
  rw [hu1] at h
  dsimp only at h
  cases hb : _getMatchingSequence pB r1 with
  | none => rw [hb] at h; exact absurd h (by simp)
  | some b =>
    rw [hb] at h
    dsimp only at h
    rcases hu2 : rng1.generateUnit with ⟨r2, rng2⟩
    rw [hu2] at h
    dsimp only at h
    cases he : _getMatchingSequence pE r2 with
    | none => rw [he] at h; exact absurd h (by simp)
    | some e =>
      rw [he] at h
      dsimp only at h
      simp only [hr, hu1, hu2]
      refine ⟨fun hle => ?_, ?_⟩
      · have hbounds := generateRange_bounds rng minLength maxLength hle
        rw [hr] at hbounds
        exact hbounds
      rcases hm : middleLoop pM (jsRound t) fuel
          (b.sequence.chars.length + e.sequence.chars.length) [] rng2 with ⟨res, rng3⟩
      rw [hm] at h
      cases res with
      | diverged => exact absurd h (by simp)
      | thrown tag => exact absurd h (by simp)
      | ok p =>
        rcases p with ⟨ms, lenF⟩
        simp only [Prod.mk.injEq, JsResult.ok.injEq] at h
        obtain ⟨rfl, rfl⟩ := h
        obtain ⟨new, hnew, hlen, hpart, htar, hmem⟩ :=
          middleLoop_ok_characterization pM (jsRound t) fuel
            (b.sequence.chars.length + e.sequence.chars.length) [] rng2 ms lenF rng3 hm
        rw [List.nil_append] at hnew
        subst hnew
        refine ⟨b, e, ms, hb, he, hmem, ?_, ?_, rfl⟩
        · intro k hk
          exact hpart k hk
        · rw [hlen] at htar
          exact htar

/-- C6 (witness): concrete one-token tables, bounds 3-4, seed `"s"`: the
attempt assembles `"aba"`. -/
theorem generateSingleWord_characterization_witness :
    assemblyCharacterization tblA tblBmid tblA 3 4 rngS ['a', 'b', 'a'] :=
  generateSingleWord_characterization tblA tblBmid tblA 3 4 50 rngS
    ⟨4111573824⟩ ['a', 'b', 'a'] (by decide)

/-- A word the retry loop returns is never string-equal to a word
already accepted in this `generate` call. -/
theorem retryLoop_ok_not_mem
    (probableBeginnings probableMiddles probableEndings : List ProbabilityAndSequence)
    (minLength maxLength : ℚ) (fuel : ℕ) (words : List (List Char)) :
    ∀ (remaining : ℕ) (word : Option (List Char)) (rng : RandomSeeded)
      (w : List Char) (rng' : RandomSeeded),
      (retryLoopWithCount probableBeginnings probableMiddles probableEndings
        minLength maxLength fuel words remaining word rng).1 = (JsResult.ok w, rng') →
      words.contains w = false := by
  intro remaining
  induction remaining with
  | zero =>
    intro word rng w rng' h
    simp [retryLoopWithCount] at h
  | succ remaining ih =>
    intro word rng w rng' h
    simp only [retryLoopWithCount] at h
    rcases hg : _generateSingleWord probableBeginnings probableMiddles probableEndings
        minLength maxLength fuel rng with ⟨res, rngM⟩
    rw [hg] at h
    cases res with
    | diverged => simp at h
    | thrown tag =>
      dsimp only at h
      split at h
      · simp at h
      · cases word with
        | none => exact ih none rngM w rng' h
        | some w0 =>
          dsimp only at h
          split at h
          case isTrue hmem => exact ih (some w0) rngM w rng' h
          case isFalse hmem =>
            simp only [Prod.mk.injEq, JsResult.ok.injEq] at h
            obtain ⟨⟨rfl, rfl⟩, -⟩ := h
            exact Bool.eq_false_iff.mpr hmem
    | ok w0 =>
      dsimp only at h
      split at h
      case isTrue hmem => exact ih (some w0) rngM w rng' h
      case isFalse hmem =>
        simp only [Prod.mk.injEq, JsResult.ok.injEq] at h
        obtain ⟨⟨rfl, rfl⟩, -⟩ := h
        exact Bool.eq_false_iff.mpr hmem

/-- The word loop grows the accepted list by exactly one word per
iteration and preserves pairwise distinctness. -/
theorem wordsLoop_ok_characterization
    (probableBeginnings probableMiddles probableEndings : List ProbabilityAndSequence)
    (minLength maxLength : ℚ) (fuel : ℕ) :
    ∀ (n : ℕ) (words : List (List Char)) (rng : RandomSeeded)
      (out : List (List Char)) (rng' : RandomSeeded),
      wordsLoop probableBeginnings probableMiddles probableEndings
        minLength maxLength fuel n words rng = (JsResult.ok out, rng') →
      out.length = words.length + n ∧
      (List.Pairwise (· ≠ ·) words → List.Pairwise (· ≠ ·) out) := by
  intro n
  induction n with
  | zero =>
    intro words rng out rng' h
    simp only [wordsLoop, Prod.mk.injEq, JsResult.ok.injEq] at h
    obtain ⟨rfl, rfl⟩ := h
    exact ⟨rfl, fun hp => hp⟩
  | succ n ih =>
    intro words rng out rng' h
    simp only [wordsLoop] at h
    rcases hres : retryLoop probableBeginnings probableMiddles probableEndings
        minLength maxLength fuel words repetitionMaximum none rng with ⟨res, rngR⟩
    rw [hres] at h
    cases res with
    | thrown tag => simp at h
    | diverged => simp at h
    | ok w =>
      dsimp only at h
      obtain ⟨hlen, hpair⟩ := ih (words ++ [w]) rngR out rng' h
      have hnotmem : words.contains w = false :=
        retryLoop_ok_not_mem probableBeginnings probableMiddles probableEndings
          minLength maxLength fuel words repetitionMaximum none rng w rngR
          (by rw [← hres]; rfl)
      have hwnotin : w ∉ words := by
        simpa [List.contains, List.elem_eq_mem] using hnotmem
      refine ⟨by rw [hlen]; simp; omega, fun hp => ?_⟩
      apply hpair
      rw [List.pairwise_append]
      refine ⟨hp, by simp, ?_⟩
      intro a ha b hb
      simp only [List.mem_singleton] at hb
      subst hb
      intro hab
      subst hab
      exact hwnotin ha

/-- C1 (amended): when `generate(howMany)` returns normally it returns
exactly `howMany` strings, obtained from `howMany` pairwise-distinct
accepted raw words by applying the configured spelling strategy (if any)
to each, preserving order and count; without a spelling strategy the
returned strings themselves are pairwise distinct. Distinctness of the
returned list is not guaranteed under a non-injective spelling
strategy. -/
theorem generate_ok_characterization :
    ∀ (g : Generator) (fuel howMany : ℕ) (ws : List (List Char)) (rng' : RandomSeeded),
      generate g fuel howMany = (JsResult.ok ws, rng') →
      ws.length = howMany ∧
      ∃ raw : List (List Char),
        raw.length = howMany ∧
        List.Pairwise (· ≠ ·) raw ∧
        ws = (match g.spellingStrategy with
              | some apply => raw.map apply
              | none => raw) ∧
        (g.spellingStrategy = none → List.Pairwise (· ≠ ·) ws) := by
  intro g fuel howMany ws rng' h
  unfold generate at h
  dsimp only at h
  cases hB : _getWeightedProbabilities
      (_getAggregatedSequenceProbabilities (_aggregateSequences (g.sequencingStrategy g.sampleSet)))
      SEQUENCE_TYPES.BEGINNING with
  | none => rw [hB] at h; simp at h
  | some pB =>
    rw [hB] at h
    cases hM : _getWeightedProbabilities
        (_getAggregatedSequenceProbabilities (_aggregateSequences (g.sequencingStrategy g.sampleSet)))
        SEQUENCE_TYPES.MIDDLE with
    | none => rw [hM] at h; simp at h
    | some pM =>
      rw [hM] at h
      cases hE : _getWeightedProbabilities
          (_getAggregatedSequenceProbabilities (_aggregateSequences (g.sequencingStrategy g.sampleSet)))
          SEQUENCE_TYPES.ENDING with
      | none => rw [hE] at h; simp at h
      | some pE =>
        rw [hE] at h
        dsimp only at h
        rcases hw : wordsLoop pB pM pE g.targetLengthMin g.targetLengthMax
            fuel howMany [] g.rng with ⟨res, rngW⟩
        rw [hw] at h
        cases res with
        | thrown tag => simp at h
        | diverged => simp at h
        | ok words =>
          dsimp only at h
          obtain ⟨hlen, hpair⟩ :=
            wordsLoop_ok_characterization pB pM pE g.targetLengthMin g.targetLengthMax
              fuel howMany [] g.rng words rngW hw
          have hlen' : words.length = howMany := by simpa using hlen
          have hpair' : List.Pairwise (· ≠ ·) words := hpair (by simp)
          simp only [Prod.mk.injEq, JsResult.ok.injEq] at h
          obtain ⟨hws, -⟩ := h
          cases hs : g.spellingStrategy with
          | some apply =>
            rw [hs] at hws
            dsimp only at hws
            exact ⟨by rw [← hws]; simpa using hlen', words, hlen', hpair',
              hws.symm, fun hnone => absurd hnone (by simp)⟩
          | none =>
            rw [hs] at hws
            dsimp only at hws
            exact ⟨by rw [← hws]; exact hlen', words, hlen', hpair',
              hws.symm, fun _ => by rw [← hws]; exact hpair'⟩

/-- C1 (amended, witness): the corpus-`["aba"]` generator with a
collapsing spelling strategy at `howMany = 2`. -/
theorem generate_ok_characterization_witness :
    ([['x'], ['x']] : List (List Char)).length = 2 ∧
    ∃ raw : List (List Char),
      raw.length = 2 ∧
      List.Pairwise (· ≠ ·) raw ∧
      ([['x'], ['x']] : List (List Char)) =
        (match genAba.spellingStrategy with
          | some apply => raw.map apply
          | none => raw) ∧
      (genAba.spellingStrategy = none → List.Pairwise (· ≠ ·) ([['x'], ['x']] : List (List Char))) :=
  generate_ok_characterization genAba 50 2 [['x'], ['x']] ⟨1723151171⟩ (by decide)

/-- The retry loop performs at most `remaining` assembly attempts. -/
theorem retryLoopWithCount_le
    (probableBeginnings probableMiddles probableEndings : List ProbabilityAndSequence)
    (minLength maxLength : ℚ) (fuel : ℕ) (words : List (List Char)) :
    ∀ (remaining : ℕ) (word : Option (List Char)) (rng : RandomSeeded),
      (retryLoopWithCount probableBeginnings probableMiddles probableEndings
        minLength maxLength fuel words remaining word rng).2 ≤ remaining := by
  intro remaining
  induction remaining with
  | zero => intro word rng; simp [retryLoopWithCount]
  | succ remaining ih =>
    intro word rng
    simp only [retryLoopWithCount]
    rcases _generateSingleWord probableBeginnings probableMiddles probableEndings
        minLength maxLength fuel rng with ⟨res, rngM⟩
    cases res with
    | diverged => simp
    | thrown tag =>
      dsimp only
      split
      · simp
      · cases word with
        | none => simpa using Nat.succ_le_succ (ih none rngM)
        | some w0 =>
          dsimp only
          split
          · simpa using Nat.succ_le_succ (ih (some w0) rngM)
          · simp
    | ok w0 =>
      dsimp only
      split
      · simpa using Nat.succ_le_succ (ih (some w0) rngM)
      · simp

/-- Every error the retry loop lets escape is one of the two
retry-exhaustion errors; a sampling error thrown inside an assembly
attempt is always caught. -/
theorem retryLoopWithCount_thrown_tag
    (probableBeginnings probableMiddles probableEndings : List ProbabilityAndSequence)
    (minLength maxLength : ℚ) (fuel : ℕ) (words : List (List Char)) :
    ∀ (remaining : ℕ) (word : Option (List Char)) (rng : RandomSeeded)
      (tag : ErrorTag) (rng' : RandomSeeded),
      (retryLoopWithCount probableBeginnings probableMiddles probableEndings
        minLength maxLength fuel words remaining word rng).1 = (JsResult.thrown tag, rng') →
      tag = ErrorTag.maxTriesError ∨ tag = ErrorTag.maxTriesInnerError := by
  intro remaining
  induction remaining with
  | zero =>
    intro word rng tag rng' h
    simp only [retryLoopWithCount, Prod.mk.injEq, JsResult.thrown.injEq] at h
    exact Or.inl h.1.symm
  | succ remaining ih =>
    intro word rng tag rng' h
    simp only [retryLoopWithCount] at h
    rcases hg : _generateSingleWord probableBeginnings probableMiddles probableEndings
        minLength maxLength fuel rng with ⟨res, rngM⟩
    rw [hg] at h
    cases res with
    | diverged => simp at h
    | thrown tag0 =>
      dsimp only at h
      split at h
      · simp only [Prod.mk.injEq, JsResult.thrown.injEq] at h
        exact Or.inr h.1.symm
      · cases word with
        | none => exact ih none rngM tag rng' h
        | some w0 =>
          dsimp only at h
          split at h
          · exact ih (some w0) rngM tag rng' h
          · simp at h
    | ok w0 =>
      dsimp only at h
      split at h
      · exact ih (some w0) rngM tag rng' h
      · simp at h

/-- Errors escaping the word loop are retry-exhaustion errors. -/
theorem wordsLoop_thrown_tag
    (probableBeginnings probableMiddles probableEndings : List ProbabilityAndSequence)
    (minLength maxLength : ℚ) (fuel : ℕ) :
    ∀ (n : ℕ) (words : List (List Char)) (rng : RandomSeeded)
      (tag : ErrorTag) (rng' : RandomSeeded),
      wordsLoop probableBeginnings probableMiddles probableEndings
        minLength maxLength fuel n words rng = (JsResult.thrown tag, rng') →
      tag = ErrorTag.maxTriesError ∨ tag = ErrorTag.maxTriesInnerError := by
  intro n
  induction n with
  | zero => intro words rng tag rng' h; simp [wordsLoop] at h
  | succ n ih =>
    intro words rng tag rng' h
    simp only [wordsLoop] at h
    rcases hres : retryLoop probableBeginnings probableMiddles probableEndings
        minLength maxLength fuel words repetitionMaximum none rng with ⟨res, rngR⟩
    rw [hres] at h
    cases res with
    | ok w => exact ih (words ++ [w]) rngR tag rng' h
    | diverged => simp at h
    | thrown tag0 =>
      simp only [Prod.mk.injEq, JsResult.thrown.injEq] at h
      obtain ⟨rfl, -⟩ := h
      exact retryLoopWithCount_thrown_tag probableBeginnings probableMiddles probableEndings
        minLength maxLength fuel words repetitionMaximum none rng tag0 rngR
        (by rw [← hres]; rfl)

/-- C7: the retry ceiling and error propagation of `generate`: each
requested word costs at most `repetitionMaximum` (1000) assembly
attempts; reaching the ceiling throws immediately, before another
attempt; and any error that escapes `generate` is the table-building
TypeError or one of the two retry-exhaustion errors — never the sampling
error thrown inside an assembly attempt, which the retry loop always
catches. A thrown result carries no word list, so no partial result is
returned. -/
theorem retry_ceiling_and_error_propagation :
    (∀ (probableBeginnings probableMiddles probableEndings : List ProbabilityAndSequence)
      (minLength maxLength : ℚ) (fuel : ℕ) (words : List (List Char))
      (word : Option (List Char)) (rng : RandomSeeded),
      (retryLoopWithCount probableBeginnings probableMiddles probableEndings
        minLength maxLength fuel words repetitionMaximum word rng).2 ≤ repetitionMaximum) ∧
    (∀ (probableBeginnings probableMiddles probableEndings : List ProbabilityAndSequence)
      (minLength maxLength : ℚ) (fuel : ℕ) (words : List (List Char))
      (word : Option (List Char)) (rng : RandomSeeded),
      retryLoop probableBeginnings probableMiddles probableEndings
        minLength maxLength fuel words 0 word rng =
        (JsResult.thrown ErrorTag.maxTriesError, rng)) ∧
    ∀ (g : Generator) (fuel n : ℕ) (tag : ErrorTag) (rng' : RandomSeeded),
      generate g fuel n = (JsResult.thrown tag, rng') →
      (tag = ErrorTag.typeError ∨ tag = ErrorTag.maxTriesError ∨
        tag = ErrorTag.maxTriesInnerError) ∧ tag ≠ ErrorTag.samplingError := by
  refine ⟨?_, ?_, ?_⟩
  · intro pB pM pE minL maxL fuel words word rng
    exact retryLoopWithCount_le pB pM pE minL maxL fuel words repetitionMaximum word rng
  · intro pB pM pE minL maxL fuel words word rng
    rfl
  · intro g fuel n tag rng' h
    unfold generate at h
    dsimp only at h
    have hmain : tag = ErrorTag.typeError ∨ tag = ErrorTag.maxTriesError ∨
        tag = ErrorTag.maxTriesInnerError := by
      cases hB : _getWeightedProbabilities
          (_getAggregatedSequenceProbabilities
            (_aggregateSequences (g.sequencingStrategy g.sampleSet)))
          SEQUENCE_TYPES.BEGINNING with
      | none =>
        rw [hB] at h
        simp only [Prod.mk.injEq, JsResult.thrown.injEq] at h
        exact Or.inl h.1.symm
      | some pB =>
        rw [hB] at h
        cases hM : _getWeightedProbabilities
            (_getAggregatedSequenceProbabilities
              (_aggregateSequences (g.sequencingStrategy g.sampleSet)))
            SEQUENCE_TYPES.MIDDLE with
        | none =>
          rw [hM] at h
          simp only [Prod.mk.injEq, JsResult.thrown.injEq] at h
          exact Or.inl h.1.symm
        | some pM =>
          rw [hM] at h
          cases hE : _getWeightedProbabilities
              (_getAggregatedSequenceProbabilities
                (_aggregateSequences (g.sequencingStrategy g.sampleSet)))
              SEQUENCE_TYPES.ENDING with
          | none =>
            rw [hE] at h
            simp only [Prod.mk.injEq, JsResult.thrown.injEq] at h
            exact Or.inl h.1.symm
          | some pE =>
            rw [hE] at h
            dsimp only at h
            rcases hw : wordsLoop pB pM pE g.targetLengthMin g.targetLengthMax
                fuel n [] g.rng with ⟨res, rngW⟩
            rw [hw] at h
            cases res with
            | ok words => simp at h
            | diverged => simp at h
            | thrown tag0 =>
              simp only [Prod.mk.injEq, JsResult.thrown.injEq] at h
              obtain ⟨rfl, -⟩ := h
              exact Or.inr (wordsLoop_thrown_tag pB pM pE g.targetLengthMin
                g.targetLengthMax fuel n [] g.rng tag0 rngW hw)
    refine ⟨hmain, ?_⟩
    rcases hmain with rfl | rfl | rfl <;> simp

/-- C7 (witness): the corpus-`["a"]` generator has no middle-role
tokens, so `generate` throws the table-building TypeError — which is not
the sampling error. -/
theorem retry_ceiling_and_error_propagation_witness :
    ((ErrorTag.typeError = ErrorTag.typeError ∨ ErrorTag.typeError = ErrorTag.maxTriesError ∨
      ErrorTag.typeError = ErrorTag.maxTriesInnerError) ∧
      ErrorTag.typeError ≠ ErrorTag.samplingError) :=
  retry_ceiling_and_error_propagation.2.2 genA 10 1 ErrorTag.typeError
    ⟨993964009⟩ (by decide)

/-- `generate` never reads the stored seed string: only the rng state
matters. -/
theorem generate_seed_irrel (g : Generator) (s : Option (List Char)) (fuel n : ℕ) :
    generate { g with seed := s } fuel n = generate g fuel n := by
  cases g
  rfl

/-- A call sequence on one generator instance never reads the stored
seed string. -/
theorem generateCalls_seed_irrel :
    ∀ (calls : List ℕ) (g : Generator) (s : Option (List Char)) (fuel : ℕ),
      generateCalls { g with seed := s } fuel calls = generateCalls g fuel calls := by
  intro calls
  induction calls with
  | nil => intro g s fuel; rfl
  | cons n rest ih =>
    intro g s fuel
    simp only [generateCalls]
    rw [generate_seed_irrel g s fuel n]
    rcases hg : generate g fuel n with ⟨res, rng'⟩
    dsimp only
    exact congrArg (res :: ·) (ih { g with rng := rng' } s fuel)

/-- C5: determinism and the fallback seed. Identical construction
arguments (same corpus, bounds, strategies, and seed) give identical
output sequences for the same `generate` call sequence; and an undefined
or empty seed behaves exactly like the fixed fallback seed, so
construction without a seed is still deterministic. -/
theorem generator_deterministic_and_fallback_seed :
    (∀ (args1 args2 : GeneratorArgs) (fuel : ℕ) (calls : List ℕ), args1 = args2 →
      runGeneratorCalls args1 fuel calls = runGeneratorCalls args2 fuel calls) ∧
    ∀ (args : GeneratorArgs) (fuel : ℕ) (calls : List ℕ),
      runGeneratorCalls { args with seed := none } fuel calls =
        runGeneratorCalls { args with seed := some [] } fuel calls ∧
      runGeneratorCalls { args with seed := none } fuel calls =
        runGeneratorCalls { args with seed := some fallbackSeed } fuel calls := by
  constructor
  · intro args1 args2 fuel calls h
    rw [h]
  · intro args fuel calls
    obtain ⟨ss, mn, mx, sq, sp, sd⟩ := args
    have key : ∀ (x y : Option (List Char)), RandomSeeded.create x = RandomSeeded.create y →
        runGeneratorCalls ⟨ss, mn, mx, sq, sp, x⟩ fuel calls =
          runGeneratorCalls ⟨ss, mn, mx, sq, sp, y⟩ fuel calls := by
      intro x y hxy
      simp only [runGeneratorCalls, mkGenerator]
      cases ss with
      | none => rfl
      | some l =>
        dsimp only
        rw [hxy]
        by_cases h1 : l.length = 0
        · rw [if_pos h1, if_pos h1]
        · rw [if_neg h1, if_neg h1]
          by_cases h2 : ¬isInteger mn = true ∨ (mn.getD 0).num ≤ 0
          · rw [if_pos h2, if_pos h2]
          · rw [if_neg h2, if_neg h2]
            by_cases h3 : ¬isInteger mx = true ∨ (mx.getD 0).num ≤ 0
            · rw [if_pos h3, if_pos h3]
            · rw [if_neg h3, if_neg h3]
              cases sq with
              | none => rfl
              | some strat =>
                dsimp only
                congr 1
                exact generateCalls_seed_irrel calls
                  { sampleSet := l, targetLengthMin := mn.getD 0, targetLengthMax := mx.getD 0
                    sequencingStrategy := strat, spellingStrategy := sp, seed := y
                    rng := RandomSeeded.create y } x fuel
    exact ⟨key none (some []) (by decide), key none (some fallbackSeed) (by decide)⟩

/-- C5 (witness): the concrete configuration `argsAba` run once. -/
theorem generator_deterministic_and_fallback_seed_witness :
    runGeneratorCalls argsAba 50 [1] = runGeneratorCalls argsAba 50 [1] :=
  generator_deterministic_and_fallback_seed.1 argsAba argsAba 50 [1] rfl

/-- C8: eager constructor validation. A missing or empty `sampleSet`, a
missing, non-integer or non-positive `targetLengthMin` (in particular
0), a missing, non-integer or non-positive `targetLengthMax`, or an
omitted `sequencingStrategy` each make the Generator constructor throw a
configuration error, producing no object; `CharDepthSequencingStrategy`
construction with depth 0 likewise throws; and a configuration omitting
only `spellingStrategy` and `seed` constructs successfully. -/
theorem constructor_validation :
    (∀ args : GeneratorArgs, (args.sampleSet = none ∨ args.sampleSet = some []) →
      mkGenerator args = JsResult.thrown ErrorTag.configError) ∧
    (∀ args : GeneratorArgs,
      (args.targetLengthMin = none ∨
        ∃ q : ℚ, args.targetLengthMin = some q ∧ (q.den ≠ 1 ∨ q ≤ 0)) →
      mkGenerator args = JsResult.thrown ErrorTag.configError) ∧
    (∀ args : GeneratorArgs,
      (args.targetLengthMax = none ∨
        ∃ q : ℚ, args.targetLengthMax = some q ∧ (q.den ≠ 1 ∨ q ≤ 0)) →
      mkGenerator args = JsResult.thrown ErrorTag.configError) ∧
    (∀ args : GeneratorArgs, args.sequencingStrategy = none →
      mkGenerator args = JsResult.thrown ErrorTag.configError) ∧
    (∀ pc : Bool, mkCharDepthSequencingStrategy 0 pc = JsResult.thrown ErrorTag.configError) ∧
    ∃ g : Generator,
      mkGenerator { argsAba with spellingStrategy := none, seed := none } = JsResult.ok g := by
  have hmin : ∀ (q : ℚ), q.den ≠ 1 ∨ q ≤ 0 →
      (¬isInteger (some q) = true ∨ ((some q : Option ℚ).getD 0).num ≤ 0) := by
    intro q hq
    rcases hq with hden | hle
    · left
      simp [isInteger, hden]
    · right
      simpa [Option.getD] using Rat.num_nonpos.mpr hle
  refine ⟨?_, ?_, ?_, ?_, ?_, ?_⟩
  · intro args h
    unfold mkGenerator
    rcases h with h | h
    · rw [h]
    · rw [h]
      rfl
  · intro args h
    unfold mkGenerator
    cases hss : args.sampleSet with
    | none => rfl
    | some l =>
      dsimp only
      by_cases h1 : l.length = 0
      · rw [if_pos h1]
      · rw [if_neg h1]
        have hcond : ¬isInteger args.targetLengthMin = true ∨
            (args.targetLengthMin.getD 0).num ≤ 0 := by
          rcases h with h | ⟨q, hq, hbad⟩
          · left; simp [h, isInteger]
          · rw [hq]; exact hmin q hbad
        rw [if_pos hcond]
  · intro args h
    unfold mkGenerator
    cases hss : args.sampleSet with
    | none => rfl
    | some l =>
      dsimp only
      by_cases h1 : l.length = 0
      · rw [if_pos h1]
      · rw [if_neg h1]
        by_cases h2 : ¬isInteger args.targetLengthMin = true ∨
            (args.targetLengthMin.getD 0).num ≤ 0
        · rw [if_pos h2]
        · rw [if_neg h2]
          have hcond : ¬isInteger args.targetLengthMax = true ∨
              (args.targetLengthMax.getD 0).num ≤ 0 := by
            rcases h with h | ⟨q, hq, hbad⟩
            · left; simp [h, isInteger]
            · rw [hq]; exact hmin q hbad
          rw [if_pos hcond]
  · intro args h
    unfold mkGenerator
    cases hss : args.sampleSet with
    | none => rfl
    | some l =>
      dsimp only
      by_cases h1 : l.length = 0
      · rw [if_pos h1]
      · rw [if_neg h1]
        by_cases h2 : ¬isInteger args.targetLengthMin = true ∨
            (args.targetLengthMin.getD 0).num ≤ 0
        · rw [if_pos h2]
        · rw [if_neg h2]
          by_cases h3 : ¬isInteger args.targetLengthMax = true ∨
              (args.targetLengthMax.getD 0).num ≤ 0
          · rw [if_pos h3]
          · rw [if_neg h3]
            rw [h]
  · intro pc
    cases pc <;> decide
  · exact ⟨{ sampleSet := [['a', 'b', 'a']]
             targetLengthMin := 3
             targetLengthMax := 4
             sequencingStrategy := charDepth1Strategy
             spellingStrategy := none
             seed := none
             rng := RandomSeeded.create none }, rfl⟩

/-- C8 (witness): the concrete bad inputs named by the claim. -/
theorem constructor_validation_witness :
    mkGenerator { argsAba with sampleSet := some [] } = JsResult.thrown ErrorTag.configError ∧
    mkGenerator { argsAba with targetLengthMin := some 0 } =
      JsResult.thrown ErrorTag.configError ∧
    mkGenerator { argsAba with targetLengthMax := some (7 / 2) } =
      JsResult.thrown ErrorTag.configError ∧
    mkGenerator { argsAba with sequencingStrategy := none } =
      JsResult.thrown ErrorTag.configError :=
  ⟨constructor_validation.1 _ (Or.inr rfl),
    constructor_validation.2.1 _ (Or.inr ⟨0, rfl, Or.inr le_rfl⟩),
    constructor_validation.2.2.1 _ (Or.inr ⟨7 / 2, rfl, Or.inl (by norm_num)⟩),
    constructor_validation.2.2.2.1 _ rfl⟩

/-- C1 (counterexample): a validly constructed generator whose spelling
strategy maps every word to `"x"`. `generate(2)` succeeds: the accepted
raw words `"aba"` and `"abba"` are distinct, but the returned
(post-spelling) list `["x", "x"]` contains two equal strings. -/
theorem generate_spelling_can_collapse_distinct_words :
    mkGenerator argsAba = JsResult.ok genAba ∧
    (generate genAba 50 2).1 = JsResult.ok [['x'], ['x']] ∧
    ¬ List.Pairwise (· ≠ ·) [['x'], ['x']] ∧
    (generate { genAba with spellingStrategy := none } 50 2).1 =
      JsResult.ok [['a', 'b', 'a'], ['a', 'b', 'b', 'a']] := by
  refine ⟨rfl, by decide, by decide, by decide⟩

end WordGen
